import Mathlib

/-!
# Verification of the PyTreasuryDirect report-aggregation core

This file is a shallow embedding, in Lean 4, of the report-aggregation core of
`pytreasurydirect/treasury_direct_apy.py`: the record normalizer
(`_normalize_dates`), the content-based deduplicator used by `produce_report`,
the family of time-bucket key functions (`sort_by_date_base`,
`sort_by_week_base`, `sort_by_month_base`, `sort_by_term`), and the two-level
grouping/aggregation pipeline of `produce_report`.

Modelling conventions:
* A Python dict (an issue record) is an association list `Rec` of
  `String × Val` pairs kept in insertion order; dict lookup, in-place update
  and key removal are `getField`, `setField` and key filtering on that list.
  Records built by Python never repeat a key.
* A field value is either a string (`Val.s`) or a parsed
  `datetime.datetime` object (`Val.dt`); those are the only value shapes the
  aggregation core produces or consumes.
* Raised Python exceptions are modelled by `Except Err`; `Err` distinguishes
  `KeyError`, `ValueError` and `TypeError` kinds.
* `datetime.datetime.strptime(s, '%Y-%m-%dT%H:%M:%S')` is modelled by
  `parseDateTime`, including CPython's tolerance for 1-digit month, day,
  hour, minute and second fields (the underlying `_strptime` regexes accept
  e.g. `2020-6-1T0:0:0`), its exactly-4-digit year, and the calendar
  validation performed by the `datetime` constructor.
* Python's `sorted` is modelled by the stable insertion sort `pySort`;
  `itertools.groupby` by `groupByKey` (maximal runs of equal keys); `set` of
  canonicalized records followed by re-listing by `dedupFirst` (first
  occurrences kept; the concrete enumeration order of a Python `set` is
  unspecified, which is irrelevant to set membership facts and is treated
  explicitly in the determinism analysis).
-/

/-- A parsed `datetime.datetime`: the six components produced by parsing with
format `'%Y-%m-%dT%H:%M:%S'`. -/
structure DateTimeV where
  year : Nat
  month : Nat
  day : Nat
  hour : Nat
  minute : Nat
  second : Nat
deriving DecidableEq, Repr

/-- A Python value as it occurs in an issue record: either a string field or
a parsed `datetime.datetime` object (the `_pyobj` helper values). -/
inductive Val where
  | s : String → Val
  | dt : DateTimeV → Val
deriving DecidableEq, Repr

/-- Exception kinds raised by the aggregation core. -/
inductive Err where
  | keyError : Err
  | valueError : Err
  | typeError : Err
deriving DecidableEq, Repr

deriving instance DecidableEq for Except

/-- An issue record: a Python dict modelled as an association list in
insertion order. -/
abbrev Rec := List (String × Val)

/-- Python truthiness of a record value: the empty string is falsy, any other
string and any `datetime` object is truthy. -/
def truthyV : Val → Bool
  | .s str => str ≠ ""
  | .dt _ => true

/-- Truthiness of `dict.get(key)`, whose result may be `None` (absent key). -/
def truthyO : Option Val → Bool
  | none => false
  | some v => truthyV v

/-- Python `x or y` on two `dict.get` results: the first operand if truthy,
otherwise the second. -/
def pyOr (a b : Option Val) : Option Val :=
  if truthyO a then a else b

/-- Dict lookup `d.get(k)` / `d[k]` (first occurrence; dicts never repeat a
key). -/
def getField : Rec → String → Option Val
  | [], _ => none
  | (k, v) :: rest, key => if k = key then some v else getField rest key

/-- Dict assignment `d[k] = v`: update in place if the key exists (keeping
its position), else append the new key. -/
def setField : Rec → String → Val → Rec
  | [], key, v => [(key, v)]
  | (k, w) :: rest, key, v =>
    if k = key then (k, v) :: rest else (k, w) :: setField rest key v

/-- Whether a field name ends in `'_pyobj'`, the suffix of the internal
parsed-date helper keys. -/
def endsPyobj (s : String) : Bool :=
  List.isSuffixOf "_pyobj".data s.data

/-- `_remove_pyobj_helpers` on one record: pop every key that ends with
`'_pyobj'`. -/
def stripPyobj (r : Rec) : Rec :=
  r.filter (fun kv => ¬ endsPyobj kv.1)

/-! ## Date parsing and formatting

`datetime.datetime.strptime(s, '%Y-%m-%dT%H:%M:%S')` and
`datetime.datetime.strftime(d, '%Y-%m-%d')`. -/

/-- Decimal digit test. -/
def isDig (c : Char) : Bool := '0' ≤ c && c ≤ '9'

/-- Value of a decimal digit character. -/
def digVal (c : Char) : Nat := c.toNat - '0'.toNat

/-- Parse exactly four decimal digits (CPython's `%Y` pattern). -/
def parse4 : List Char → Option (Nat × List Char)
  | a :: b :: c :: d :: rest =>
    if isDig a && isDig b && isDig c && isDig d then
      some (((digVal a * 10 + digVal b) * 10 + digVal c) * 10 + digVal d, rest)
    else none
  | _ => none

/-- Parse a one- or two-digit field whose value must lie in `[lo, hi]`
(CPython's `%m/%d/%H/%M/%S` patterns followed by a literal delimiter: the
match must consume every digit available, at most two). -/
def parse12 (lo hi : Nat) : List Char → Option (Nat × List Char)
  | a :: rest =>
    if isDig a then
      match rest with
      | b :: rest' =>
        if isDig b then
          if rest'.head?.any isDig then none
          else
            let n := digVal a * 10 + digVal b
            if lo ≤ n ∧ n ≤ hi then some (n, rest') else none
        else if lo ≤ digVal a ∧ digVal a ≤ hi then some (digVal a, rest) else none
      | [] => if lo ≤ digVal a ∧ digVal a ≤ hi then some (digVal a, []) else none
    else none
  | [] => none

/-- Consume one expected literal character. -/
def expectCh (c : Char) : List Char → Option (List Char)
  | a :: rest => if a = c then some rest else none
  | [] => none

/-- Gregorian leap-year rule (as used by Python's `datetime`/`calendar`). -/
def isLeap (y : Nat) : Bool :=
  y % 4 == 0 && (y % 100 != 0 || y % 400 == 0)

/-- Number of days in a month of a given year. -/
def daysInMonth (y m : Nat) : Nat :=
  if m = 2 then (if isLeap y then 29 else 28)
  else if m = 4 ∨ m = 6 ∨ m = 9 ∨ m = 11 then 30
  else 31

/-- `datetime.datetime.strptime(s, '%Y-%m-%dT%H:%M:%S')`: four-digit year,
1-or-2-digit month/day/hour/minute/second separated by the literal
delimiters, nothing left over, and the day valid for the month (the
`datetime` constructor validates the calendar and requires year ≥ 1). -/
def parseDateTime (s : String) : Option DateTimeV := do
  let (y, r1) ← parse4 s.data
  let r2 ← expectCh '-' r1
  let (mo, r3) ← parse12 1 12 r2
  let r4 ← expectCh '-' r3
  let (d, r5) ← parse12 1 31 r4
  let r6 ← expectCh 'T' r5
  let (h, r7) ← parse12 0 23 r6
  let r8 ← expectCh ':' r7
  let (mi, r9) ← parse12 0 59 r8
  let r10 ← expectCh ':' r9
  let (se, r11) ← parse12 0 59 r10
  if r11 = [] ∧ 1 ≤ y ∧ d ≤ daysInMonth y mo then
    some ⟨y, mo, d, h, mi, se⟩
  else none

/-- Zero-pad a number to two digits (`strftime` `%m`/`%d`). -/
def pad2 (n : Nat) : String :=
  if n < 10 then "0" ++ toString n else toString n

/-- Zero-pad a year to four digits (`strftime` `%Y`). -/
def pad4 (n : Nat) : String :=
  if n < 10 then "000" ++ toString n
  else if n < 100 then "00" ++ toString n
  else if n < 1000 then "0" ++ toString n
  else toString n

/-- `datetime.datetime.strftime(d, '%Y-%m-%d')`. -/
def fmtDate (d : DateTimeV) : String :=
  pad4 d.year ++ "-" ++ pad2 d.month ++ "-" ++ pad2 d.day

/-- `timetuple().tm_yday`: the 1-based ordinal of the day within its year. -/
def dayOfYear (d : DateTimeV) : Nat :=
  (List.range (d.month - 1)).foldl (fun acc i => acc + daysInMonth d.year (i + 1)) 0 + d.day

/-- Chronological strict order on `datetime` objects (Python compares the
components lexicographically). -/
def dtLt (a b : DateTimeV) : Bool :=
  a.year < b.year || (a.year == b.year &&
    (a.month < b.month || (a.month == b.month &&
      (a.day < b.day || (a.day == b.day &&
        (a.hour < b.hour || (a.hour == b.hour &&
          (a.minute < b.minute || (a.minute == b.minute &&
            a.second < b.second)))))))))

/-! ## Time-bucket key functions

`sort_by_date_base`, `sort_by_week_base`, `sort_by_month_base` each read
`issue[attribute]` (raising `KeyError` on a missing attribute and
`AttributeError`-style failure — modelled as `TypeError` — on a non-datetime
value) and return a tuple of ints, modelled as `List Int`. -/

/-- Read `issue[attribute]` expecting a parsed `datetime` object. -/
def getDtAttr (issue : Rec) (attr : String) : Except Err DateTimeV :=
  match getField issue attr with
  | none => .error .keyError
  | some (.dt d) => .ok d
  | some (.s _) => .error .typeError

/-- `sort_by_date_base`: `(year, month, day)` of the chosen attribute. -/
def sort_by_date_base (issue : Rec) (attr : String) : Except Err (List Int) := do
  let d ← getDtAttr issue attr
  pure [(d.year : Int), (d.month : Int), (d.day : Int)]

/-- `sort_by_week_base`: `(year, divmod(tm_yday, 7)[0] + 1)` of the chosen
attribute. -/
def sort_by_week_base (issue : Rec) (attr : String) : Except Err (List Int) := do
  let d ← getDtAttr issue attr
  pure [(d.year : Int), (dayOfYear d / 7 + 1 : Nat)]

/-- `sort_by_month_base`: `(year, month)` of the chosen attribute. -/
def sort_by_month_base (issue : Rec) (attr : String) : Except Err (List Int) := do
  let d ← getDtAttr issue attr
  pure [(d.year : Int), (d.month : Int)]

/-- `sort_by_week_issued = functools.partial(sort_by_week_base, attribute='issueDate_pyobj')`. -/
def sort_by_week_issued (issue : Rec) : Except Err (List Int) :=
  sort_by_week_base issue "issueDate_pyobj"

/-- `sort_by_month_maturity = functools.partial(sort_by_month_base, attribute='actual_maturity_pyobj')`. -/
def sort_by_month_maturity (issue : Rec) : Except Err (List Int) :=
  sort_by_month_base issue "actual_maturity_pyobj"

/-- `sort_by_date_issued = functools.partial(sort_by_date_base, attribute='issueDate_pyobj')`. -/
def sort_by_date_issued (issue : Rec) : Except Err (List Int) :=
  sort_by_date_base issue "issueDate_pyobj"

/-- `sort_by_term`: `issue['securityTerm']`, the plain term string
(`securityTerm` is a string field in every record the data source returns). -/
def sort_by_term (issue : Rec) : Except Err String :=
  match getField issue "securityTerm" with
  | none => .error .keyError
  | some (.s t) => .ok t
  | some (.dt _) => .error .typeError

/-- `sort_by_aggregation_normalization`: `'-'.join(map(str, key_tuple))`. -/
def sort_by_aggregation_normalization (key_tuple : List Int) : String :=
  String.intercalate "-" (key_tuple.map (fun i => toString i))

/-! ## Ordering of sort keys

Python's `sorted` compares int tuples (and strings) with `<`; its order is
ascending and the sort is stable. -/

/-- Python `<` on int tuples: lexicographic, first differing component
decides, a strict prefix is smaller. -/
def keyLt : List Int → List Int → Bool
  | [], [] => false
  | [], _ :: _ => true
  | _ :: _, [] => false
  | a :: as, b :: bs => a < b || (a == b && keyLt as bs)

/-- The non-strict order `sorted` establishes on bucket keys. -/
def keyLe (a b : List Int) : Bool := ! keyLt b a

/-- Python `<` on strings: lexicographic by code point. -/
def strLtCh : List Char → List Char → Bool
  | [], [] => false
  | [], _ :: _ => true
  | _ :: _, [] => false
  | a :: as, b :: bs => a.toNat < b.toNat || (a == b && strLtCh as bs)

/-- Python `<` on strings. -/
def strLt (a b : String) : Bool := strLtCh a.data b.data

/-- The non-strict order `sorted` establishes on term strings. -/
def strLe (a b : String) : Bool := ! strLt b a

/-! ## Generic list machinery: `sorted`, `itertools.groupby`, `set`,
left-to-right effectful `map` -/

/-- Left-to-right map over a fallible function: the first raised exception
aborts the whole traversal, exactly like a Python list comprehension /
generator consumed by `sum` or `sorted`. -/
def mapE (f : α → Except Err β) : List α → Except Err (List β)
  | [] => .ok []
  | x :: xs =>
    match f x with
    | .error e => .error e
    | .ok y =>
      match mapE f xs with
      | .error e => .error e
      | .ok ys => .ok (y :: ys)

/-- Insert into an already-sorted list, after every element that is `le` the
new one — the placement a stable sort gives an element arriving later. -/
def insSorted (le : α → α → Bool) (x : α) : List α → List α
  | [] => [x]
  | y :: ys => if le y x then y :: insSorted le x ys else x :: y :: ys

/-- Stable ascending sort (Python's `sorted`): fold the input left to right
into an insertion sort, so equal elements keep their relative order. -/
def pySort (le : α → α → Bool) (l : List α) : List α :=
  l.foldl (fun acc x => insSorted le x acc) []

/-- `itertools.groupby`: split a list into maximal runs of consecutive
elements with equal keys, tagging each run with its key. -/
def groupByKey [BEq κ] (key : α → κ) : List α → List (κ × List α)
  | [] => []
  | x :: xs =>
    match groupByKey key xs with
    | [] => [(key x, [x])]
    | (k, g) :: rest =>
      if key x == k then (key x, x :: g) :: rest
      else (key x, [x]) :: (k, g) :: rest

/-- Keep the first occurrence of every element (re-listing a Python `set`
built from the list; a set's enumeration order is unspecified, first
occurrence is the canonical choice). -/
def dedupAux [DecidableEq α] (seen : List α) : List α → List α
  | [] => []
  | x :: xs => if x ∈ seen then dedupAux seen xs else x :: dedupAux (x :: seen) xs

/-- `list(set(l))` up to enumeration order. -/
def dedupFirst [DecidableEq α] (l : List α) : List α := dedupAux [] l

/-- `tuple(sorted(res.items()))`: the content-canonical form of a record,
its fields sorted by key (dict keys are unique, so the item comparison never
reaches the values). -/
def canonRec (r : Rec) : Rec := pySort (fun a b => strLe a.1 b.1) r

/-- The deduplication step of `produce_report`:
`[dict(t) for t in set([tuple(sorted(res.items())) for res in results])]`. -/
def dedupCanon (results : List Rec) : List Rec :=
  dedupFirst (results.map canonRec)

/-! ## The record normalizer: `_normalize_dates` -/

/-- The five public date fields of `date_keys_to_normalize`. The source holds
them in a Python `set`; their processing steps touch pairwise disjoint keys,
so a fixed enumeration order is faithful. -/
def dateKeysToNormalize : List String :=
  ["issueDate", "announcementDate", "auctionDate", "maturingDate", "maturityDate"]

/-- One iteration of the inner loop of `_normalize_dates`: if
`issue.get(date_attr)` is truthy, parse it (`strptime` raises `ValueError`
on a malformed string and `TypeError` on a non-string), store the parsed
object under `date_attr + '_pyobj'`, and rewrite the public field to
`'%Y-%m-%d'`. -/
def processDateKey (issue : Rec) (date_attr : String) : Except Err Rec :=
  match getField issue date_attr with
  | none => .ok issue
  | some v =>
    if truthyV v then
      match v with
      | .s str =>
        match parseDateTime str with
        | none => .error .valueError
        | some d =>
          .ok (setField (setField issue (date_attr ++ "_pyobj") (.dt d)) date_attr (.s (fmtDate d)))
      | .dt _ => .error .typeError
    else .ok issue

/-- The inner loop of `_normalize_dates` over all date keys. -/
def normalizeKeys : Rec → List String → Except Err Rec
  | issue, [] => .ok issue
  | issue, k :: ks =>
    match processDateKey issue k with
    | .error e => .error e
    | .ok issue' => normalizeKeys issue' ks

/-- The `actual_maturity` derivation at the end of the `_normalize_dates`
loop body: read the two parsed maturity helpers; if both are truthy take the
later one, otherwise `maturing or maturity`; store it and its `'%Y-%m-%d'`
rendering. When the chosen value is not a `datetime` object (in particular
`None`, when neither date was present) the `strftime` call — or, for mixed
operand types, already the `>` comparison — raises a `TypeError`. -/
def maturityStep (issue : Rec) : Except Err Rec :=
  let maturing := getField issue "maturingDate_pyobj"
  let maturity := getField issue "maturityDate_pyobj"
  let actual : Option Val :=
    if truthyO maturing && truthyO maturity then
      match maturing, maturity with
      | some (.dt d1), some (.dt d2) => some (.dt (if dtLt d2 d1 then d1 else d2))
      | _, _ => none
    else pyOr maturing maturity
  match actual with
  | some (.dt d) =>
    .ok (setField (setField issue "actual_maturity_pyobj" (.dt d)) "actual_maturity" (.s (fmtDate d)))
  | _ => .error .typeError

/-- The whole `_normalize_dates` loop body for one issue. -/
def normalizeIssue (issue : Rec) : Except Err Rec :=
  match normalizeKeys issue dateKeysToNormalize with
  | .error e => .error e
  | .ok issue' => maturityStep issue'

/-- `_normalize_dates`: normalize every record of the batch; the first
raised exception aborts the batch. -/
def normalize_dates (issues : List Rec) : Except Err (List Rec) :=
  mapE normalizeIssue issues

/-! ## The report pipeline: `produce_report` -/

/-- One value of the nested term map: `<sort_name>_term_total`, optionally
`soma_<sort_name>_term_total`, and the member list `issues` (keys whose
names the source builds from `sort_name`; the structure fields are fixed
here, the rendering of the key names carries no logic). -/
structure TermEntry where
  term_total : Int
  soma_term_total : Option Int
  issues : List Rec
deriving DecidableEq, Repr

/-- One element of the returned report list: the `timeframe` string, the
grouping key it renders (kept alongside for specification purposes),
`<sort_name>_total`, optionally `soma_<sort_name>_total`, and the map from
term to `TermEntry` in its insertion order. -/
structure BucketEntry where
  key : List Int
  timeframe : String
  total : Int
  soma_total : Option Int
  terms : List (String × TermEntry)
deriving DecidableEq, Repr

/-- Accumulate a non-empty all-digit run into its value. -/
def digitsVal : Nat → List Char → Option Nat
  | acc, [] => some acc
  | acc, c :: cs => if isDig c then digitsVal (acc * 10 + digVal c) cs else none

/-- Python `int(s)` on a decimal string: an optional sign followed by at
least one digit; anything else raises `ValueError`. -/
def pyInt (s : String) : Option Int :=
  match s.data with
  | [] => none
  | '-' :: c :: cs => (digitsVal 0 (c :: cs)).map (fun n => -(n : Int))
  | '+' :: c :: cs => (digitsVal 0 (c :: cs)).map (fun n => (n : Int))
  | l => (digitsVal 0 l).map (fun n => (n : Int))

/-- `int(i['offeringAmount'])`: `KeyError` if absent, `TypeError` on a
`datetime` object, `ValueError` on a non-numeric string. -/
def offeringAmountInt (i : Rec) : Except Err Int :=
  match getField i "offeringAmount" with
  | none => .error .keyError
  | some (.dt _) => .error .typeError
  | some (.s str) =>
    match pyInt str with
    | some n => .ok n
    | none => .error .valueError

/-- `int(i['soma_holding_amount'])`. -/
def somaHoldingAmountInt (i : Rec) : Except Err Int :=
  match getField i "soma_holding_amount" with
  | none => .error .keyError
  | some (.dt _) => .error .typeError
  | some (.s str) =>
    match pyInt str with
    | some n => .ok n
    | none => .error .valueError

/-- `sum(...)` over the ints of a generator, left to right. -/
def intSum (l : List Int) : Int := l.foldl (· + ·) 0

/-- The body of the inner `for term, term_issues in ...` loop: re-sort the
term's records by the bucket-key function, total `offeringAmount`
(and `soma_holding_amount` when `soma` is set), and strip the `_pyobj`
helpers from the member list. -/
def buildTermEntry (kf : Rec → Except Err (List Int)) (soma : Bool)
    (term_issues : List Rec) : Except Err TermEntry :=
  match mapE (fun r => (kf r).map (fun k => (k, r))) term_issues with
  | .error e => .error e
  | .ok kps =>
    let term_isues_date := (pySort (fun p q => keyLe p.1 q.1) kps).map (·.2)
    match mapE offeringAmountInt term_isues_date with
    | .error e => .error e
    | .ok amounts =>
      let total := intSum amounts
      match (if soma then (mapE somaHoldingAmountInt term_isues_date).map some
             else .ok none) with
      | .error e => .error e
      | .ok somaAmounts =>
        .ok ⟨total, somaAmounts.map intSum, term_isues_date.map stripPyobj⟩

/-- The body of the outer `for sort_criteria, issues in ...` loop: render
the timeframe, group the bucket's records by term, build every term entry,
and accumulate the bucket totals. -/
def buildBucket (kf : Rec → Except Err (List Int)) (soma : Bool)
    (sort_criteria : List Int) (issues : List Rec) : Except Err BucketEntry :=
  match mapE (fun r => (sort_by_term r).map (fun t => (t, r))) issues with
  | .error e => .error e
  | .ok tps =>
    let tsorted := pySort (fun p q => strLe p.1 q.1) tps
    let tgroups := groupByKey (·.1) tsorted
    match mapE (fun tg => (buildTermEntry kf soma (tg.2.map (·.2))).map (fun te => (tg.1, te)))
        tgroups with
    | .error e => .error e
    | .ok terms =>
      let total := intSum (terms.map (fun p => p.2.term_total))
      let somaTotal :=
        if soma then some (intSum (terms.map (fun p => p.2.soma_term_total.getD 0)))
        else none
      .ok ⟨sort_criteria, sort_by_aggregation_normalization sort_criteria,
           total, somaTotal, terms⟩

/-- The stages of `produce_report` that follow deduplication: normalize the
deduplicated records, sort and group them by the bucket-key function, and
build every bucket entry. -/
def reportFromDeduped (deduped : List Rec) (kf : Rec → Except Err (List Int))
    (soma : Bool) : Except Err (List BucketEntry) :=
  match normalize_dates deduped with
  | .error e => .error e
  | .ok normalized =>
    match mapE (fun r => (kf r).map (fun k => (k, r))) normalized with
    | .error e => .error e
    | .ok pairs =>
      let sortedPairs := pySort (fun p q => keyLe p.1 q.1) pairs
      let groups := groupByKey (·.1) sortedPairs
      mapE (fun g => buildBucket kf soma g.1 (g.2.map (·.2))) groups

/-- `produce_report`: deduplicate, then normalize, sort, group and total. -/
def produce_report (results : List Rec) (kf : Rec → Except Err (List Int))
    (soma : Bool) : Except Err (List BucketEntry) :=
  reportFromDeduped (dedupCanon results) kf soma

/-! ## Lemmas about the generic machinery -/

theorem mapE_ok_forall₂ {f : α → Except Err β} :
    ∀ {l : List α} {ys : List β}, mapE f l = .ok ys →
      List.Forall₂ (fun x y => f x = .ok y) l ys := by
  intro l
  induction l with
  | nil =>
    intro ys h
    simp only [mapE] at h
    cases h
    exact .nil
  | cons x xs ih =>
    intro ys h
    simp only [mapE] at h
    cases hx : f x with
    | error e => rw [hx] at h; cases h
    | ok y =>
      rw [hx] at h
      cases hxs : mapE f xs with
      | error e => rw [hxs] at h; cases h
      | ok ys' =>
        rw [hxs] at h
        cases h
        exact .cons hx (ih hxs)

theorem forall₂_mem_left {R : α → β → Prop} :
    ∀ {l : List α} {ys : List β}, List.Forall₂ R l ys →
      ∀ {x : α}, x ∈ l → ∃ y, R x y ∧ y ∈ ys := by
  intro l ys h
  induction h with
  | nil => intro x hx; cases hx
  | cons hf _ ih =>
    intro x hx
    rcases List.mem_cons.mp hx with rfl | hx
    · exact ⟨_, hf, List.mem_cons_self _ _⟩
    · rcases ih hx with ⟨y, hy, hmem⟩
      exact ⟨y, hy, List.mem_cons_of_mem _ hmem⟩

theorem forall₂_mem_right {R : α → β → Prop} :
    ∀ {l : List α} {ys : List β}, List.Forall₂ R l ys →
      ∀ {y : β}, y ∈ ys → ∃ x, x ∈ l ∧ R x y := by
  intro l ys h
  induction h with
  | nil => intro y hy; cases hy
  | cons hf _ ih =>
    intro y hy
    rcases List.mem_cons.mp hy with rfl | hy
    · exact ⟨_, List.mem_cons_self _ _, hf⟩
    · rcases ih hy with ⟨x, hx, hfx⟩
      exact ⟨x, List.mem_cons_of_mem _ hx, hfx⟩

theorem mapE_ok_mem_left {f : α → Except Err β} {l : List α} {ys : List β}
    (h : mapE f l = .ok ys) {x : α} (hx : x ∈ l) :
    ∃ y, f x = .ok y ∧ y ∈ ys :=
  forall₂_mem_left (mapE_ok_forall₂ h) hx

theorem mapE_ok_mem_right {f : α → Except Err β} {l : List α} {ys : List β}
    (h : mapE f l = .ok ys) {y : β} (hy : y ∈ ys) :
    ∃ x, x ∈ l ∧ f x = .ok y :=
  forall₂_mem_right (mapE_ok_forall₂ h) hy

theorem mapE_error_of_mem {f : α → Except Err β} {l : List α} {x : α}
    (hx : x ∈ l) (hfx : ∀ y, f x ≠ .ok y) : ∃ e, mapE f l = .error e := by
  cases h : mapE f l with
  | error e => exact ⟨e, rfl⟩
  | ok ys =>
    rcases mapE_ok_mem_left h hx with ⟨y, hy, _⟩
    exact absurd hy (hfx y)

theorem mapE_ok_eq_map {f : α → Except Err β} (dflt : β) :
    ∀ {l : List α} {ys : List β}, mapE f l = .ok ys →
      ys = l.map (fun x => (f x).toOption.getD dflt) := by
  intro l
  induction l with
  | nil => intro ys h; simp only [mapE] at h; cases h; rfl
  | cons x xs ih =>
    intro ys h
    simp only [mapE] at h
    cases hx : f x with
    | error e => rw [hx] at h; cases h
    | ok y =>
      rw [hx] at h
      cases hxs : mapE f xs with
      | error e => rw [hxs] at h; cases h
      | ok ys' =>
        rw [hxs] at h
        cases h
        simp [List.map_cons, hx, Except.toOption, ih hxs]

theorem mapE_tag_ok_map_snd {g : α → Except Err κ} :
    ∀ {l : List α} {ps : List (κ × α)},
      mapE (fun x => (g x).map (fun k => (k, x))) l = .ok ps →
      ps.map Prod.snd = l := by
  intro l
  induction l with
  | nil => intro ps h; simp only [mapE] at h; cases h; rfl
  | cons x xs ih =>
    intro ps h
    simp only [mapE] at h
    cases hx : (g x).map (fun k => (k, x)) with
    | error e => rw [hx] at h; cases h
    | ok p =>
      rw [hx] at h
      cases hxs : mapE (fun x => (g x).map (fun k => (k, x))) xs with
      | error e => rw [hxs] at h; cases h
      | ok ps' =>
        rw [hxs] at h
        cases h
        have hsnd : p.2 = x := by
          cases hg : g x with
          | error e => rw [hg] at hx; cases hx
          | ok k => rw [hg] at hx; cases hx; rfl
        simp [hsnd, ih hxs]

theorem insSorted_perm (le : α → α → Bool) (x : α) (l : List α) :
    List.Perm (insSorted le x l) (x :: l) := by
  induction l with
  | nil => exact List.Perm.refl _
  | cons y ys ih =>
    simp only [insSorted]
    split
    · exact ((ih.cons y).trans (List.Perm.swap x y ys))
    · exact List.Perm.refl _

theorem pySort_perm (le : α → α → Bool) (l : List α) :
    List.Perm (pySort le l) l := by
  suffices h : ∀ (l acc : List α),
      List.Perm (l.foldl (fun acc x => insSorted le x acc) acc) (l ++ acc) by
    simpa using h l []
  intro l
  induction l with
  | nil => intro acc; simp
  | cons x xs ih =>
    intro acc
    show List.Perm (xs.foldl (fun acc x => insSorted le x acc) (insSorted le x acc)) _
    refine (ih (insSorted le x acc)).trans ?_
    refine (List.Perm.append_left xs (insSorted_perm le x acc)).trans ?_
    exact List.perm_middle

theorem mem_insSorted {le : α → α → Bool} {x a : α} {l : List α} :
    a ∈ insSorted le x l ↔ a = x ∨ a ∈ l := by
  constructor
  · intro h
    have := (insSorted_perm le x l).mem_iff.mp h
    simpa using this
  · intro h
    apply (insSorted_perm le x l).mem_iff.mpr
    simpa using h

theorem insSorted_pairwise {le : α → α → Bool}
    (htot : ∀ a b, le a b = true ∨ le b a = true)
    (htrans : ∀ a b c, le a b = true → le b c = true → le a c = true)
    (x : α) {l : List α} (hl : l.Pairwise (fun a b => le a b = true)) :
    (insSorted le x l).Pairwise (fun a b => le a b = true) := by
  induction l with
  | nil => simp [insSorted]
  | cons y ys ih =>
    simp only [insSorted]
    rcases hl with - | ⟨hy, hys⟩
    split
    · refine List.Pairwise.cons ?_ (ih hys)
      intro a ha
      rcases mem_insSorted.mp ha with rfl | ha
      · assumption
      · exact hy a ha
    · rename_i hyx
      have hxy : le x y = true := by
        rcases htot x y with h | h
        · exact h
        · exact absurd h (by simpa using hyx)
      refine List.Pairwise.cons ?_ (List.Pairwise.cons hy hys)
      intro a ha
      rcases List.mem_cons.mp ha with rfl | ha
      · exact hxy
      · exact htrans x y a hxy (hy a ha)

theorem pySort_pairwise (le : α → α → Bool)
    (htot : ∀ a b, le a b = true ∨ le b a = true)
    (htrans : ∀ a b c, le a b = true → le b c = true → le a c = true)
    (l : List α) : (pySort le l).Pairwise (fun a b => le a b = true) := by
  suffices h : ∀ (l acc : List α), acc.Pairwise (fun a b => le a b = true) →
      (l.foldl (fun acc x => insSorted le x acc) acc).Pairwise
        (fun a b => le a b = true) by
    exact h l [] (by simp)
  intro l
  induction l with
  | nil => intro acc hacc; simpa using hacc
  | cons x xs ih =>
    intro acc hacc
    exact ih _ (insSorted_pairwise htot htrans x hacc)

theorem insSorted_append_of_le {le : α → α → Bool} {x : α} {l : List α}
    (h : ∀ y ∈ l, le y x = true) : insSorted le x l = l ++ [x] := by
  induction l with
  | nil => rfl
  | cons y ys ih =>
    simp only [insSorted]
    rw [if_pos (h y (List.mem_cons_self y ys))]
    simp [ih (fun z hz => h z (List.mem_cons_of_mem y hz))]

theorem pySort_of_pairwise {le : α → α → Bool} {l : List α}
    (hl : l.Pairwise (fun a b => le a b = true)) : pySort le l = l := by
  suffices h : ∀ (l acc : List α),
      (acc ++ l).Pairwise (fun a b => le a b = true) →
      l.foldl (fun acc x => insSorted le x acc) acc = acc ++ l by
    simpa using h l [] (by simpa using hl)
  intro l
  induction l with
  | nil => intro acc _; simp
  | cons x xs ih =>
    intro acc hacc
    have hins : insSorted le x acc = acc ++ [x] := by
      apply insSorted_append_of_le
      intro y hy
      exact ((List.pairwise_append.mp hacc).2.2) y hy x (List.mem_cons_self x xs)
    calc (x :: xs).foldl (fun acc x => insSorted le x acc) acc
        = xs.foldl (fun acc x => insSorted le x acc) (insSorted le x acc) := rfl
      _ = xs.foldl (fun acc x => insSorted le x acc) (acc ++ [x]) := by rw [hins]
      _ = (acc ++ [x]) ++ xs := ih (acc ++ [x]) (by simpa using hacc)
      _ = acc ++ x :: xs := by simp

/-! ### The strict orders used by the sorts -/

theorem keyLt_irrefl : ∀ a : List Int, keyLt a a = false := by
  intro a
  induction a with
  | nil => rfl
  | cons x xs ih => simp [keyLt, ih]

theorem keyLt_asymm : ∀ {a b : List Int},
    keyLt a b = true → keyLt b a = true → False := by
  intro a
  induction a with
  | nil =>
    intro b h1 h2
    cases b with
    | nil => simp [keyLt] at h1
    | cons y ys => simp [keyLt] at h2
  | cons x xs ih =>
    intro b h1 h2
    cases b with
    | nil => simp [keyLt] at h1
    | cons y ys =>
      simp only [keyLt, Bool.or_eq_true, Bool.and_eq_true, beq_iff_eq,
        decide_eq_true_eq] at h1 h2
      rcases h1 with h1 | ⟨rfl, h1⟩
      · rcases h2 with h2 | ⟨rfl, h2⟩
        · omega
        · omega
      · rcases h2 with h2 | ⟨-, h2⟩
        · omega
        · exact ih h1 h2

theorem keyLt_conn : ∀ {a b : List Int},
    keyLt a b = false → keyLt b a = false → a = b := by
  intro a
  induction a with
  | nil =>
    intro b h1 _
    cases b with
    | nil => rfl
    | cons y ys => simp [keyLt] at h1
  | cons x xs ih =>
    intro b h1 h2
    cases b with
    | nil => simp [keyLt] at h2
    | cons y ys =>
      simp only [keyLt, Bool.or_eq_false_iff, Bool.and_eq_false_iff,
        decide_eq_false_iff_not, beq_eq_false_iff_ne, ne_eq] at h1 h2
      have hxy : x = y := by omega
      subst hxy
      rcases h1.2 with h | h
      · exact absurd rfl h
      · rcases h2.2 with h' | h'
        · exact absurd rfl h'
        · rw [ih h h']

theorem keyLt_trans : ∀ {a b c : List Int},
    keyLt a b = true → keyLt b c = true → keyLt a c = true := by
  intro a
  induction a with
  | nil =>
    intro b c h1 h2
    cases b with
    | nil => simp [keyLt] at h1
    | cons y ys =>
      cases c with
      | nil => simp [keyLt] at h2
      | cons z zs => simp [keyLt]
  | cons x xs ih =>
    intro b c h1 h2
    cases b with
    | nil => simp [keyLt] at h1
    | cons y ys =>
      cases c with
      | nil => simp [keyLt] at h2
      | cons z zs =>
        simp only [keyLt, Bool.or_eq_true, Bool.and_eq_true, beq_iff_eq,
          decide_eq_true_eq] at h1 h2 ⊢
        rcases h1 with h1 | ⟨rfl, h1⟩
        · rcases h2 with h2 | ⟨rfl, h2⟩
          · left; omega
          · left; exact h1
        · rcases h2 with h2 | ⟨rfl, h2⟩
          · left; exact h2
          · right; exact ⟨rfl, ih h1 h2⟩

theorem keyLe_total (a b : List Int) : keyLe a b = true ∨ keyLe b a = true := by
  by_cases h1 : keyLt b a = true
  · right
    simp only [keyLe]
    cases h2 : keyLt a b
    · rfl
    · exact absurd (keyLt_asymm h2 h1) (fun f => f)
  · left
    simp only [Bool.not_eq_true] at h1
    simp [keyLe, h1]

theorem keyLe_trans {a b c : List Int} (h1 : keyLe a b = true)
    (h2 : keyLe b c = true) : keyLe a c = true := by
  simp only [keyLe, Bool.not_eq_true'] at h1 h2 ⊢
  cases h3 : keyLt c a
  · rfl
  · exfalso
    cases h6 : keyLt b c
    · have hbc := keyLt_conn h6 h2
      subst hbc
      rw [h3] at h1
      cases h1
    · have hba := keyLt_trans h6 h3
      rw [hba] at h1
      cases h1

theorem keyLe_antisymm {a b : List Int} (h1 : keyLe a b = true)
    (h2 : keyLe b a = true) : a = b := by
  simp only [keyLe, Bool.not_eq_true'] at h1 h2
  exact keyLt_conn h2 h1

theorem keyLt_of_keyLe_of_ne {a b : List Int} (h : keyLe a b = true)
    (hne : a ≠ b) : keyLt a b = true := by
  simp only [keyLe, Bool.not_eq_true'] at h
  cases h2 : keyLt a b
  · exact absurd (keyLt_conn h2 h) hne
  · rfl

theorem char_eq_of_toNat_eq {a b : Char} (h : a.toNat = b.toNat) : a = b :=
  Char.eq_of_val_eq (UInt32.ext h)

theorem strLtCh_asymm : ∀ {a b : List Char},
    strLtCh a b = true → strLtCh b a = true → False := by
  intro a
  induction a with
  | nil =>
    intro b h1 h2
    cases b with
    | nil => simp [strLtCh] at h1
    | cons y ys => simp [strLtCh] at h2
  | cons x xs ih =>
    intro b h1 h2
    cases b with
    | nil => simp [strLtCh] at h1
    | cons y ys =>
      simp only [strLtCh, Bool.or_eq_true, Bool.and_eq_true, beq_iff_eq,
        decide_eq_true_eq] at h1 h2
      rcases h1 with h1 | ⟨rfl, h1⟩
      · rcases h2 with h2 | ⟨rfl, h2⟩
        · omega
        · omega
      · rcases h2 with h2 | ⟨-, h2⟩
        · omega
        · exact ih h1 h2

theorem strLtCh_conn : ∀ {a b : List Char},
    strLtCh a b = false → strLtCh b a = false → a = b := by
  intro a
  induction a with
  | nil =>
    intro b h1 _
    cases b with
    | nil => rfl
    | cons y ys => simp [strLtCh] at h1
  | cons x xs ih =>
    intro b h1 h2
    cases b with
    | nil => simp [strLtCh] at h2
    | cons y ys =>
      simp only [strLtCh, Bool.or_eq_false_iff, Bool.and_eq_false_iff,
        decide_eq_false_iff_not, beq_eq_false_iff_ne, ne_eq] at h1 h2
      have hxy : x = y := char_eq_of_toNat_eq (by omega)
      subst hxy
      rcases h1.2 with h | h
      · exact absurd rfl h
      · rcases h2.2 with h' | h'
        · exact absurd rfl h'
        · rw [ih h h']

theorem strLtCh_trans : ∀ {a b c : List Char},
    strLtCh a b = true → strLtCh b c = true → strLtCh a c = true := by
  intro a
  induction a with
  | nil =>
    intro b c h1 h2
    cases b with
    | nil => simp [strLtCh] at h1
    | cons y ys =>
      cases c with
      | nil => simp [strLtCh] at h2
      | cons z zs => simp [strLtCh]
  | cons x xs ih =>
    intro b c h1 h2
    cases b with
    | nil => simp [strLtCh] at h1
    | cons y ys =>
      cases c with
      | nil => simp [strLtCh] at h2
      | cons z zs =>
        simp only [strLtCh, Bool.or_eq_true, Bool.and_eq_true, beq_iff_eq,
          decide_eq_true_eq] at h1 h2 ⊢
        rcases h1 with h1 | ⟨rfl, h1⟩
        · rcases h2 with h2 | ⟨rfl, h2⟩
          · left; omega
          · left; exact h1
        · rcases h2 with h2 | ⟨rfl, h2⟩
          · left; exact h2
          · right; exact ⟨rfl, ih h1 h2⟩

theorem strLt_conn {a b : String} (h1 : strLt a b = false)
    (h2 : strLt b a = false) : a = b := by
  have h := strLtCh_conn (a := a.data) (b := b.data) h1 h2
  cases a; cases b
  exact congrArg String.mk h

theorem strLe_total (a b : String) : strLe a b = true ∨ strLe b a = true := by
  by_cases h1 : strLt b a = true
  · right
    simp only [strLe]
    cases h2 : strLt a b
    · rfl
    · exact absurd (strLtCh_asymm h2 h1) (fun f => f)
  · left
    simp only [Bool.not_eq_true] at h1
    simp [strLe, h1]

theorem strLe_trans {a b c : String} (h1 : strLe a b = true)
    (h2 : strLe b c = true) : strLe a c = true := by
  simp only [strLe, Bool.not_eq_true'] at h1 h2 ⊢
  cases h3 : strLt c a
  · rfl
  · exfalso
    cases h6 : strLt b c
    · have hbc := strLt_conn h6 h2
      subst hbc
      rw [h3] at h1
      cases h1
    · have hba : strLt b a = true := strLtCh_trans h6 h3
      rw [hba] at h1
      cases h1

theorem strLe_antisymm {a b : String} (h1 : strLe a b = true)
    (h2 : strLe b a = true) : a = b := by
  simp only [strLe, Bool.not_eq_true'] at h1 h2
  exact strLt_conn h2 h1

theorem strLt_of_strLe_of_ne {a b : String} (h : strLe a b = true)
    (hne : a ≠ b) : strLt a b = true := by
  simp only [strLe, Bool.not_eq_true'] at h
  cases h2 : strLt a b
  · exact absurd (strLt_conn h2 h) hne
  · rfl

theorem dtLt_irrefl (d : DateTimeV) : dtLt d d = false := by
  simp [dtLt]

theorem dtLt_asymm {a b : DateTimeV} (h1 : dtLt a b = true)
    (h2 : dtLt b a = true) : False := by
  simp only [dtLt, Bool.or_eq_true, Bool.and_eq_true, beq_iff_eq,
    decide_eq_true_eq] at h1 h2
  omega

/-! ### `itertools.groupby` lemmas -/

theorem groupByKey_cons [BEq κ] (key : α → κ) (x : α) (xs : List α) :
    groupByKey key (x :: xs) =
      match groupByKey key xs with
      | [] => [(key x, [x])]
      | (k, g) :: rest =>
        if key x == k then (key x, x :: g) :: rest
        else (key x, [x]) :: (k, g) :: rest := rfl

theorem groupByKey_cons_nil [BEq κ] {key : α → κ} {x : α} {xs : List α}
    (hg : groupByKey key xs = []) :
    groupByKey key (x :: xs) = [(key x, [x])] := by
  rw [groupByKey_cons, hg]

theorem groupByKey_cons_pos [BEq κ] {key : α → κ} {x : α} {xs : List α}
    {k0 : κ} {g0 : List α} {rest : List (κ × List α)}
    (hg : groupByKey key xs = (k0, g0) :: rest)
    (heq : (key x == k0) = true) :
    groupByKey key (x :: xs) = (key x, x :: g0) :: rest := by
  rw [groupByKey_cons, hg]
  dsimp only
  rw [if_pos heq]

theorem groupByKey_cons_neg [BEq κ] {key : α → κ} {x : α} {xs : List α}
    {k0 : κ} {g0 : List α} {rest : List (κ × List α)}
    (hg : groupByKey key xs = (k0, g0) :: rest)
    (heq : (key x == k0) = false) :
    groupByKey key (x :: xs) = (key x, [x]) :: (k0, g0) :: rest := by
  rw [groupByKey_cons, hg]
  dsimp only
  rw [if_neg (by simp [heq])]

theorem groupByKey_flatten [BEq κ] (key : α → κ) :
    ∀ l : List α, ((groupByKey key l).map Prod.snd).flatten = l := by
  intro l
  induction l with
  | nil => rfl
  | cons x xs ih =>
    cases hg : groupByKey key xs with
    | nil =>
      rw [hg] at ih
      simp only [List.map_nil, List.flatten_nil] at ih
      rw [groupByKey_cons_nil hg, ← ih]
      rfl
    | cons p rest =>
      obtain ⟨k0, g0⟩ := p
      rw [hg] at ih
      by_cases heq : (key x == k0) = true
      · rw [groupByKey_cons_pos hg heq]
        simp only [List.map_cons, List.flatten_cons] at ih ⊢
        rw [← ih]
        rfl
      · rw [groupByKey_cons_neg hg (by simpa using heq)]
        simp only [List.map_cons, List.flatten_cons] at ih ⊢
        rw [← ih]
        rfl

theorem groupByKey_mem_key [BEq κ] [LawfulBEq κ] {key : α → κ} :
    ∀ {l : List α} {k : κ} {g : List α}, (k, g) ∈ groupByKey key l →
      ∀ x ∈ g, key x = k := by
  intro l
  induction l with
  | nil => intro k g h; cases h
  | cons a as ih =>
    intro k g h x hx
    cases hg : groupByKey key as with
    | nil =>
      rw [groupByKey_cons_nil hg] at h
      rcases List.mem_singleton.mp h with h
      cases h
      rcases List.mem_singleton.mp hx with rfl
      rfl
    | cons p rest =>
      obtain ⟨k0, g0⟩ := p
      by_cases heq : (key a == k0) = true
      · rw [groupByKey_cons_pos hg heq] at h
        rcases List.mem_cons.mp h with h | h
        · cases h
          rcases List.mem_cons.mp hx with rfl | hx
          · rfl
          · rw [eq_of_beq heq]
            exact ih (hg ▸ List.mem_cons_self _ _) x hx
        · exact ih (hg ▸ List.mem_cons_of_mem _ h) x hx
      · rw [groupByKey_cons_neg hg (by simpa using heq)] at h
        rcases List.mem_cons.mp h with h | h
        · cases h
          rcases List.mem_singleton.mp hx with rfl
          rfl
        · exact ih (hg ▸ h) x hx

theorem groupByKey_group_ne_nil [BEq κ] {key : α → κ} :
    ∀ {l : List α} {k : κ} {g : List α}, (k, g) ∈ groupByKey key l → g ≠ [] := by
  intro l
  induction l with
  | nil => intro k g h; cases h
  | cons a as ih =>
    intro k g h
    cases hg : groupByKey key as with
    | nil =>
      rw [groupByKey_cons_nil hg] at h
      rcases List.mem_singleton.mp h with h
      cases h
      simp
    | cons p rest =>
      obtain ⟨k0, g0⟩ := p
      by_cases heq : (key a == k0) = true
      · rw [groupByKey_cons_pos hg heq] at h
        rcases List.mem_cons.mp h with h | h
        · cases h; simp
        · exact ih (hg ▸ List.mem_cons_of_mem _ h)
      · rw [groupByKey_cons_neg hg (by simpa using heq)] at h
        rcases List.mem_cons.mp h with h | h
        · cases h; simp
        · exact ih (hg ▸ h)

theorem groupByKey_mem_of_mem_group [BEq κ] {key : α → κ} {l : List α}
    {k : κ} {g : List α} (h : (k, g) ∈ groupByKey key l) {x : α}
    (hx : x ∈ g) : x ∈ l := by
  rw [← groupByKey_flatten key l]
  exact List.mem_flatten.mpr ⟨g, List.mem_map.mpr ⟨(k, g), h, rfl⟩, hx⟩

theorem groupByKey_fst_mem [BEq κ] [LawfulBEq κ] {key : α → κ} {l : List α}
    {k : κ} (h : k ∈ (groupByKey key l).map Prod.fst) :
    ∃ x ∈ l, key x = k := by
  rcases List.mem_map.mp h with ⟨⟨k', g⟩, hg, hk⟩
  cases hk
  rcases List.exists_mem_of_ne_nil g (groupByKey_group_ne_nil hg) with ⟨x, hx⟩
  exact ⟨x, groupByKey_mem_of_mem_group hg hx, groupByKey_mem_key hg x hx⟩

theorem groupByKey_fst_pairwise [BEq κ] [LawfulBEq κ] (key : α → κ)
    (le : κ → κ → Bool)
    (hanti : ∀ a b, le a b = true → le b a = true → a = b) :
    ∀ {l : List α}, l.Pairwise (fun a b => le (key a) (key b) = true) →
      ((groupByKey key l).map Prod.fst).Pairwise
        (fun k k' => le k k' = true ∧ k ≠ k') := by
  intro l
  induction l with
  | nil => intro _; simp [groupByKey]
  | cons a as ih =>
    intro hsort
    rcases List.pairwise_cons.mp hsort with ⟨hle, hsorted⟩
    cases hg : groupByKey key as with
    | nil => rw [groupByKey_cons_nil hg]; simp
    | cons p rest =>
      obtain ⟨k0, g0⟩ := p
      have ihg := ih hsorted
      rw [hg] at ihg
      by_cases heq : (key a == k0) = true
      · rw [groupByKey_cons_pos hg heq]
        simpa [eq_of_beq heq] using ihg
      · rw [groupByKey_cons_neg hg (by simpa using heq)]
        have hne0 : key a ≠ k0 := by
          intro hc
          exact heq (by simp [hc])
        have hmemle : ∀ k' ∈ ((k0, g0) :: rest).map Prod.fst,
            le (key a) k' = true := by
          intro k' hk'
          rcases groupByKey_fst_mem (hg ▸ hk') with ⟨x, hx, hkx⟩
          exact hkx ▸ hle x hx
        refine List.Pairwise.cons ?_ ihg
        intro k' hk'
        rcases List.mem_cons.mp hk' with rfl | hk'
        · exact ⟨hmemle _ (List.mem_cons_self _ _), hne0⟩
        · refine ⟨hmemle _ (List.mem_cons_of_mem _ (by simpa using hk')), ?_⟩
          intro hc
          have hrel := (List.pairwise_cons.mp ihg).1 k' (by simpa using hk')
          have hkk : k0 = k' :=
            hanti _ _ hrel.1 (hc ▸ hmemle _ (List.mem_cons_self _ _))
          exact hrel.2 hkk

theorem filter_eq_self_of_key {p : α → Bool} {g : List α}
    (h : ∀ x ∈ g, p x = true) : g.filter p = g :=
  List.filter_eq_self.mpr h

theorem filter_eq_nil_of_key {p : α → Bool} {g : List α}
    (h : ∀ x ∈ g, p x = false) : g.filter p = [] := by
  induction g with
  | nil => rfl
  | cons y ys ih =>
    rw [List.filter_cons, if_neg (by simp [h y (List.mem_cons_self y ys)])]
    exact ih (fun z hz => h z (List.mem_cons_of_mem _ hz))

theorem groupByKey_group_eq_filter [BEq κ] [LawfulBEq κ] {key : α → κ}
    {le : κ → κ → Bool}
    (hanti : ∀ a b, le a b = true → le b a = true → a = b)
    {l : List α} (hsort : l.Pairwise (fun a b => le (key a) (key b) = true))
    {k : κ} {g : List α} (hmem : (k, g) ∈ groupByKey key l) :
    g = l.filter (fun x => key x == k) := by
  have hnodup : ((groupByKey key l).map Prod.fst).Nodup :=
    ((groupByKey_fst_pairwise key le hanti hsort).imp (fun h => h.2))
  conv_rhs => rw [← groupByKey_flatten key l]
  generalize hgs : groupByKey key l = gs at hmem hnodup
  have hkeys : ∀ k' g', (k', g') ∈ gs → ∀ x ∈ g', key x = k' := by
    intro k' g' hg' x hx
    exact groupByKey_mem_key (hgs ▸ hg') x hx
  clear hgs hsort
  induction gs with
  | nil => cases hmem
  | cons p rest ih =>
    obtain ⟨k0, g0⟩ := p
    simp only [List.map_cons, List.flatten_cons, List.filter_append]
    rcases List.mem_cons.mp hmem with hp | hp
    · cases hp
      have h1 : g.filter (fun x => key x == k) = g :=
        filter_eq_self_of_key (fun x hx => by
          simp [hkeys k g (List.mem_cons_self _ _) x hx])
      have h2 : ((rest.map Prod.snd).flatten).filter (fun x => key x == k) = [] := by
        apply filter_eq_nil_of_key
        intro x hx
        rcases List.mem_flatten.mp hx with ⟨g', hg', hxg'⟩
        obtain ⟨⟨k', gg⟩, hkg, rfl⟩ := List.mem_map.mp hg'
        have hxkey : key x = k' := hkeys k' gg (List.mem_cons_of_mem _ hkg) x hxg'
        have hne : k ≠ k' := by
          intro hc
          have hk : k ∈ rest.map Prod.fst := List.mem_map.mpr ⟨(k', gg), hkg, hc.symm⟩
          exact (List.nodup_cons.mp hnodup).1 (by simpa using hk)
        simp [hxkey]
        exact fun hc => hne hc.symm
      rw [h1, h2, List.append_nil]
    · have h0 : g0.filter (fun x => key x == k) = [] := by
        apply filter_eq_nil_of_key
        intro x hx
        have hxkey : key x = k0 := hkeys k0 g0 (List.mem_cons_self _ _) x hx
        have hne : k0 ≠ k := by
          intro hc
          have hk : k0 ∈ rest.map Prod.fst := List.mem_map.mpr ⟨(k, g), hp, hc.symm⟩
          exact (List.nodup_cons.mp hnodup).1 hk
        simp [hxkey]
        exact hne
      rw [h0]
      simp only [List.nil_append]
      exact ih hp (List.nodup_cons.mp hnodup).2
        (fun k' g' hg' => hkeys k' g' (List.mem_cons_of_mem _ hg'))

/-- The sequence of group keys depends only on the sequence of element keys. -/
def runKeys [BEq κ] : List κ → List κ
  | [] => []
  | k :: ks =>
    match runKeys ks with
    | [] => [k]
    | k' :: rest => if k == k' then k' :: rest else k :: k' :: rest

theorem groupByKey_map_fst [BEq κ] [LawfulBEq κ] (key : α → κ) :
    ∀ l : List α, (groupByKey key l).map Prod.fst = runKeys (l.map key) := by
  intro l
  induction l with
  | nil => rfl
  | cons x xs ih =>
    show (groupByKey key (x :: xs)).map Prod.fst =
      (match runKeys (xs.map key) with
        | [] => [key x]
        | k' :: rest => if key x == k' then k' :: rest else key x :: k' :: rest)
    rw [← ih]
    cases hg : groupByKey key xs with
    | nil =>
      rw [groupByKey_cons_nil hg]
      rfl
    | cons p rest =>
      obtain ⟨k0, g0⟩ := p
      by_cases heq : (key x == k0) = true
      · rw [groupByKey_cons_pos hg heq]
        dsimp only [List.map_cons]
        rw [if_pos heq, eq_of_beq heq]
      · rw [groupByKey_cons_neg hg (by simpa using heq)]
        dsimp only [List.map_cons]
        rw [if_neg (by simpa using heq)]

/-! ### `set`-rebuild (dedup) lemmas -/

theorem mem_dedupAux [DecidableEq α] :
    ∀ {l seen : List α} {x : α}, x ∈ dedupAux seen l ↔ x ∈ l ∧ x ∉ seen := by
  intro l
  induction l with
  | nil => intro seen x; simp [dedupAux]
  | cons y ys ih =>
    intro seen x
    simp only [dedupAux]
    split
    · rename_i hy
      rw [ih]
      constructor
      · rintro ⟨hx, hns⟩
        exact ⟨List.mem_cons_of_mem _ hx, hns⟩
      · rintro ⟨hx, hns⟩
        rcases List.mem_cons.mp hx with rfl | hx
        · exact absurd hy hns
        · exact ⟨hx, hns⟩
    · rename_i hy
      constructor
      · intro hx
        rcases List.mem_cons.mp hx with rfl | hx
        · exact ⟨List.mem_cons_self _ _, hy⟩
        · rcases ih.mp hx with ⟨h1, h2⟩
          exact ⟨List.mem_cons_of_mem _ h1, fun hc => h2 (List.mem_cons_of_mem _ hc)⟩
      · rintro ⟨hx, hns⟩
        rcases List.mem_cons.mp hx with rfl | hx
        · exact List.mem_cons_self _ _
        · by_cases hxy : x = y
          · subst hxy; exact List.mem_cons_self _ _
          · exact List.mem_cons_of_mem _ (ih.mpr ⟨hx, by
              intro hc
              rcases List.mem_cons.mp hc with hc | hc
              · exact hxy hc
              · exact hns hc⟩)

theorem mem_dedupFirst [DecidableEq α] {l : List α} {x : α} :
    x ∈ dedupFirst l ↔ x ∈ l := by
  simp [dedupFirst, mem_dedupAux]

theorem nodup_dedupAux [DecidableEq α] :
    ∀ {l seen : List α}, (dedupAux seen l).Nodup := by
  intro l
  induction l with
  | nil => intro seen; simp [dedupAux]
  | cons y ys ih =>
    intro seen
    simp only [dedupAux]
    split
    · exact ih
    · refine List.nodup_cons.mpr ⟨?_, ih⟩
      intro hc
      exact (mem_dedupAux.mp hc).2 (List.mem_cons_self _ _)

theorem nodup_dedupFirst [DecidableEq α] (l : List α) : (dedupFirst l).Nodup :=
  nodup_dedupAux

theorem dedupAux_eq_self [DecidableEq α] :
    ∀ {l seen : List α}, l.Nodup → (∀ x ∈ l, x ∉ seen) →
      dedupAux seen l = l := by
  intro l
  induction l with
  | nil => intro seen _ _; rfl
  | cons y ys ih =>
    intro seen hnd hdisj
    simp only [dedupAux]
    rw [if_neg (hdisj y (List.mem_cons_self _ _))]
    congr 1
    refine ih (List.nodup_cons.mp hnd).2 ?_
    intro x hx hc
    rcases List.mem_cons.mp hc with rfl | hc
    · exact (List.nodup_cons.mp hnd).1 hx
    · exact hdisj x (List.mem_cons_of_mem _ hx) hc

theorem dedupFirst_idem [DecidableEq α] (l : List α) :
    dedupFirst (dedupFirst l) = dedupFirst l :=
  dedupAux_eq_self (nodup_dedupFirst l) (fun x _ hc => List.not_mem_nil x hc)

/-! ### Dict (association list) lemmas -/

theorem getField_setField_same (r : Rec) (k : String) (v : Val) :
    getField (setField r k v) k = some v := by
  induction r with
  | nil => simp [setField, getField]
  | cons kv rest ih =>
    obtain ⟨k', w⟩ := kv
    simp only [setField]
    split
    · rename_i h; simp [getField, h]
    · rename_i h; simp [getField, h, ih]

theorem getField_setField_ne (r : Rec) {k k' : String} (v : Val)
    (h : k' ≠ k) : getField (setField r k v) k' = getField r k' := by
  induction r with
  | nil =>
    simp only [setField, getField]
    rw [if_neg (fun hc => h hc.symm)]
  | cons kv rest ih =>
    obtain ⟨k0, w⟩ := kv
    simp only [setField]
    split
    · rename_i h0
      subst h0
      simp only [getField]
      rw [if_neg (fun hc => h hc.symm), if_neg (fun hc => h hc.symm)]
    · rename_i h0
      by_cases hk : k0 = k'
      · subst hk; simp [getField]
      · simp [getField, hk, ih]

theorem getField_stripPyobj (r : Rec) {k : String} (h : endsPyobj k = false) :
    getField (stripPyobj r) k = getField r k := by
  induction r with
  | nil => rfl
  | cons kv rest ih =>
    obtain ⟨k0, w⟩ := kv
    simp only [stripPyobj, List.filter_cons]
    split
    · rename_i h0
      by_cases hk : k0 = k
      · subst hk; simp [getField, ih]
      · simp only [getField, if_neg hk]
        simpa [stripPyobj] using ih
    · rename_i h0
      have hk : k0 ≠ k := by
        intro hc
        subst hc
        simp [h] at h0
      simp only [getField, if_neg hk]
      simpa [stripPyobj] using ih

/-! ### Canonical record form -/

/-- A record's keys are pairwise distinct — true of every Python dict. -/
def KeysNodup (r : Rec) : Prop := (r.map Prod.fst).Nodup

theorem strLtCh_irrefl : ∀ a : List Char, strLtCh a a = false := by
  intro a
  induction a with
  | nil => rfl
  | cons x xs ih => simp [strLtCh, ih]

theorem strLt_ne {a b : String} (h : strLt a b = true) : a ≠ b := by
  intro hc
  subst hc
  rw [show strLt a a = strLtCh a.data a.data from rfl, strLtCh_irrefl] at h
  cases h

theorem getField_perm : ∀ {r r' : Rec}, List.Perm r r' → KeysNodup r →
    ∀ k, getField r k = getField r' k := by
  intro r r' hp
  induction hp with
  | nil => intro _ k; rfl
  | cons x _ ih =>
    intro hnd k
    obtain ⟨kx, vx⟩ := x
    simp only [getField]
    split
    · rfl
    · exact ih (List.nodup_cons.mp hnd).2 k
  | swap x y l =>
    intro hnd k
    obtain ⟨kx, vx⟩ := x
    obtain ⟨ky, vy⟩ := y
    have hne : ky ≠ kx := by
      have := (List.nodup_cons.mp hnd).1
      intro hc
      exact this (by simp [hc])
    simp only [getField]
    by_cases h1 : ky = k
    · subst h1
      rw [if_pos rfl, if_neg (fun hc => hne hc.symm), if_pos rfl]
    · by_cases h2 : kx = k
      · rw [if_neg h1, if_pos h2, if_pos h2]
      · rw [if_neg h1, if_neg h2, if_neg h2, if_neg h1]
  | trans h1 h2 ih1 ih2 =>
    intro hnd k
    rw [ih1 hnd k]
    refine ih2 ?_ k
    exact ((h1.map Prod.fst).nodup_iff).mp hnd

theorem canonRec_perm (r : Rec) : List.Perm (canonRec r) r :=
  pySort_perm _ r

theorem getField_canonRec {r : Rec} (h : KeysNodup r) (k : String) :
    getField (canonRec r) k = getField r k := by
  have hnd : KeysNodup (canonRec r) :=
    (((canonRec_perm r).map Prod.fst).nodup_iff).mpr h
  exact getField_perm (canonRec_perm r) hnd k

theorem canonRec_pairwise (r : Rec) :
    (canonRec r).Pairwise (fun a b : String × Val => strLe a.1 b.1 = true) := by
  exact pySort_pairwise (fun a b : String × Val => strLe a.1 b.1)
    (fun a b => strLe_total a.1 b.1)
    (fun a b c h1 h2 => strLe_trans (a := a.1) (b := b.1) (c := c.1) h1 h2) r

theorem canonRec_strict {r : Rec} (h : KeysNodup r) :
    (canonRec r).Pairwise (fun a b : String × Val => strLt a.1 b.1 = true) := by
  have hnd : KeysNodup (canonRec r) :=
    (((canonRec_perm r).map Prod.fst).nodup_iff).mpr h
  have hne : (canonRec r).Pairwise (fun a b : String × Val => a.1 ≠ b.1) :=
    (List.pairwise_map).mp hnd
  have hle := canonRec_pairwise r
  refine (hle.and hne).imp ?_
  rintro a b ⟨h1, h2⟩
  exact strLt_of_strLe_of_ne h1 h2

theorem getField_eq_none_of_forall_ne {r : Rec} {k : String}
    (h : ∀ kv ∈ r, kv.1 ≠ k) : getField r k = none := by
  induction r with
  | nil => rfl
  | cons kv rest ih =>
    simp only [getField]
    rw [if_neg (h kv (List.mem_cons_self _ _))]
    exact ih (fun kv' hkv' => h kv' (List.mem_cons_of_mem _ hkv'))

theorem sorted_eq_of_getField :
    ∀ {r₁ r₂ : Rec},
      r₁.Pairwise (fun a b : String × Val => strLt a.1 b.1 = true) →
      r₂.Pairwise (fun a b : String × Val => strLt a.1 b.1 = true) →
      (∀ k, getField r₁ k = getField r₂ k) → r₁ = r₂ := by
  intro r₁
  induction r₁ with
  | nil =>
    intro r₂ _ _ hget
    cases r₂ with
    | nil => rfl
    | cons kv t =>
      exfalso
      have h0 := hget kv.1
      simp [getField] at h0
  | cons kv₁ t₁ ih =>
    intro r₂ hs₁ hs₂ hget
    obtain ⟨k₁, v₁⟩ := kv₁
    cases r₂ with
    | nil =>
      exfalso
      have h0 := hget k₁
      simp [getField] at h0
    | cons kv₂ t₂ =>
      obtain ⟨k₂, v₂⟩ := kv₂
      rcases List.pairwise_cons.mp hs₁ with ⟨hlt₁, hst₁⟩
      rcases List.pairwise_cons.mp hs₂ with ⟨hlt₂, hst₂⟩
      have hkk : k₁ = k₂ := by
        rcases h12 : strLt k₁ k₂ with - | -
        · rcases h21 : strLt k₂ k₁ with - | -
          · exact strLt_conn h12 h21
          · exfalso
            have hn : getField ((k₁, v₁) :: t₁) k₂ = none := by
              apply getField_eq_none_of_forall_ne
              intro kv hkv
              rcases List.mem_cons.mp hkv with rfl | hkv
              · exact (strLt_ne h21).symm
              · exact (strLt_ne (strLtCh_trans h21 (hlt₁ kv hkv))).symm
            have hs : getField ((k₂, v₂) :: t₂) k₂ = some v₂ := by
              simp [getField]
            rw [hget k₂, hs] at hn
            cases hn
        · exfalso
          have hn : getField ((k₂, v₂) :: t₂) k₁ = none := by
            apply getField_eq_none_of_forall_ne
            intro kv hkv
            rcases List.mem_cons.mp hkv with rfl | hkv
            · exact (strLt_ne h12).symm
            · exact (strLt_ne (strLtCh_trans h12 (hlt₂ kv hkv))).symm
          have hs : getField ((k₁, v₁) :: t₁) k₁ = some v₁ := by
            simp [getField]
          rw [← hget k₁, hs] at hn
          cases hn
      subst hkk
      have hvv : v₁ = v₂ := by
        have h0 := hget k₁
        simp [getField] at h0
        exact h0
      subst hvv
      have htails : ∀ k, getField t₁ k = getField t₂ k := by
        intro k
        by_cases hk : k = k₁
        · subst hk
          rw [getField_eq_none_of_forall_ne
              (fun kv hkv => (strLt_ne (hlt₁ kv hkv)).symm),
            getField_eq_none_of_forall_ne
              (fun kv hkv => (strLt_ne (hlt₂ kv hkv)).symm)]
        · have h1 := hget k
          simp only [getField] at h1
          rw [if_neg (fun hc => hk hc.symm), if_neg (fun hc => hk hc.symm)] at h1
          exact h1
      rw [ih hst₁ hst₂ htails]

theorem canonRec_eq_iff_getField {r₁ r₂ : Rec} (h₁ : KeysNodup r₁)
    (h₂ : KeysNodup r₂) :
    canonRec r₁ = canonRec r₂ ↔ ∀ k, getField r₁ k = getField r₂ k := by
  constructor
  · intro h k
    rw [← getField_canonRec h₁ k, ← getField_canonRec h₂ k, h]
  · intro h
    refine sorted_eq_of_getField (canonRec_strict h₁) (canonRec_strict h₂) ?_
    intro k
    rw [getField_canonRec h₁ k, getField_canonRec h₂ k]
    exact h k

/-! ### Normalizer lemmas -/

theorem getField_processDateKey_ok {r r' : Rec} {dk : String}
    (h : processDateKey r dk = .ok r') {k : String} (h1 : k ≠ dk)
    (h2 : k ≠ dk ++ "_pyobj") : getField r' k = getField r k := by
  unfold processDateKey at h
  cases hg : getField r dk with
  | none => rw [hg] at h; cases h; rfl
  | some v =>
    rw [hg] at h
    dsimp only at h
    by_cases ht : truthyV v = true
    · rw [if_pos ht] at h
      cases v with
      | s str =>
        dsimp only at h
        cases hp : parseDateTime str with
        | none => rw [hp] at h; cases h
        | some d =>
          rw [hp] at h
          cases h
          rw [getField_setField_ne _ _ h1, getField_setField_ne _ _ h2]
      | dt d => dsimp only at h; cases h
    · rw [if_neg ht] at h
      cases h
      rfl

theorem normalizeKeys_ok_chain {r r'' : Rec} {dk : String} {ks : List String}
    (h : normalizeKeys r (dk :: ks) = .ok r'') :
    ∃ r₁, processDateKey r dk = .ok r₁ ∧ normalizeKeys r₁ ks = .ok r'' := by
  unfold normalizeKeys at h
  cases hp : processDateKey r dk with
  | error e => rw [hp] at h; cases h
  | ok r₁ => rw [hp] at h; exact ⟨r₁, rfl, h⟩

theorem getField_normalizeKeys_ok :
    ∀ {ks : List String} {r r' : Rec} {k : String},
      normalizeKeys r ks = .ok r' →
      (∀ dk ∈ ks, k ≠ dk ∧ k ≠ dk ++ "_pyobj") →
      getField r' k = getField r k := by
  intro ks
  induction ks with
  | nil => intro r r' k h _; cases h; rfl
  | cons dk ks ih =>
    intro r r' k h hk
    rcases normalizeKeys_ok_chain h with ⟨r₁, hp, hrest⟩
    rw [ih hrest (fun d hd => hk d (List.mem_cons_of_mem _ hd))]
    exact getField_processDateKey_ok hp (hk dk (List.mem_cons_self _ _)).1
      (hk dk (List.mem_cons_self _ _)).2

theorem maturityStep_ok_inv {r n : Rec} (h : maturityStep r = .ok n) :
    ∃ d : DateTimeV,
      n = setField (setField r "actual_maturity_pyobj" (.dt d))
            "actual_maturity" (.s (fmtDate d)) ∧
      ((truthyO (getField r "maturingDate_pyobj") = true ∧
        truthyO (getField r "maturityDate_pyobj") = true ∧
        ∃ d1 d2, getField r "maturingDate_pyobj" = some (.dt d1) ∧
          getField r "maturityDate_pyobj" = some (.dt d2) ∧
          d = if dtLt d2 d1 then d1 else d2) ∨
       ((truthyO (getField r "maturingDate_pyobj") = true ∧
         truthyO (getField r "maturityDate_pyobj") = false) ∧
          getField r "maturingDate_pyobj" = some (.dt d)) ∨
       (truthyO (getField r "maturingDate_pyobj") = false ∧
          getField r "maturityDate_pyobj" = some (.dt d))) := by
  unfold maturityStep at h
  dsimp only at h
  by_cases hb : (truthyO (getField r "maturingDate_pyobj") &&
      truthyO (getField r "maturityDate_pyobj")) = true
  · rw [if_pos hb] at h
    rcases Bool.and_eq_true_iff.mp hb with ⟨hb1, hb2⟩
    cases hg1 : getField r "maturingDate_pyobj" with
    | none => rw [hg1] at hb1; cases hb1
    | some v1 =>
      cases v1 with
      | s s1 =>
        rw [hg1] at h
        cases hg2 : getField r "maturityDate_pyobj" with
        | none => rw [hg2] at hb2; cases hb2
        | some v2 =>
          cases v2 with
          | s s2 => rw [hg2] at h; dsimp only at h; cases h
          | dt d2 => rw [hg2] at h; dsimp only at h; cases h
      | dt d1 =>
        rw [hg1] at h
        cases hg2 : getField r "maturityDate_pyobj" with
        | none => rw [hg2] at hb2; cases hb2
        | some v2 =>
          cases v2 with
          | s s2 => rw [hg2] at h; dsimp only at h; cases h
          | dt d2 =>
            rw [hg2] at h
            dsimp only at h
            cases h
            exact ⟨_, rfl, Or.inl ⟨rfl, rfl, d1, d2, rfl, rfl, rfl⟩⟩
  · rw [if_neg hb] at h
    unfold pyOr at h
    by_cases h1 : truthyO (getField r "maturingDate_pyobj") = true
    · rw [if_pos h1] at h
      cases hg1 : getField r "maturingDate_pyobj" with
      | none => rw [hg1] at h1; cases h1
      | some v1 =>
        cases v1 with
        | s s1 => rw [hg1] at h; dsimp only at h; cases h
        | dt d1 =>
          rw [hg1] at h
          dsimp only at h
          cases h
          refine ⟨d1, rfl, Or.inr (Or.inl ⟨⟨rfl, ?_⟩, rfl⟩)⟩
          cases hx : truthyO (getField r "maturityDate_pyobj")
          · rfl
          · exact absurd (by simp [h1, hx]) hb
    · rw [if_neg h1] at h
      have h1f : truthyO (getField r "maturingDate_pyobj") = false := by
        cases hx : truthyO (getField r "maturingDate_pyobj")
        · rfl
        · exact absurd hx h1
      cases hg2 : getField r "maturityDate_pyobj" with
      | none => rw [hg2] at h; dsimp only at h; cases h
      | some v2 =>
        cases v2 with
        | s s2 => rw [hg2] at h; dsimp only at h; cases h
        | dt d2 =>
          rw [hg2] at h
          dsimp only at h
          cases h
          exact ⟨d2, rfl, Or.inr (Or.inr ⟨h1f, rfl⟩)⟩

theorem getField_maturityStep_ok {r n : Rec} (h : maturityStep r = .ok n)
    {k : String} (h1 : k ≠ "actual_maturity_pyobj") (h2 : k ≠ "actual_maturity") :
    getField n k = getField r k := by
  rcases maturityStep_ok_inv h with ⟨d, rfl, -⟩
  rw [getField_setField_ne _ _ h2, getField_setField_ne _ _ h1]

theorem normalizeIssue_ok_inv {r n : Rec} (h : normalizeIssue r = .ok n) :
    ∃ r', normalizeKeys r dateKeysToNormalize = .ok r' ∧
      maturityStep r' = .ok n := by
  unfold normalizeIssue at h
  cases hk : normalizeKeys r dateKeysToNormalize with
  | error e => rw [hk] at h; cases h
  | ok r' => rw [hk] at h; exact ⟨r', rfl, h⟩

theorem getField_normalizeIssue_ok {r n : Rec} (h : normalizeIssue r = .ok n)
    {k : String} (hk : ∀ dk ∈ dateKeysToNormalize, k ≠ dk ∧ k ≠ dk ++ "_pyobj")
    (h1 : k ≠ "actual_maturity_pyobj") (h2 : k ≠ "actual_maturity") :
    getField n k = getField r k := by
  rcases normalizeIssue_ok_inv h with ⟨r', hks, hm⟩
  rw [getField_maturityStep_ok hm h1 h2]
  exact getField_normalizeKeys_ok hks hk

theorem getField_normalizeIssue_offeringAmount {r n : Rec}
    (h : normalizeIssue r = .ok n) :
    getField n "offeringAmount" = getField r "offeringAmount" := by
  refine getField_normalizeIssue_ok h ?_ (by decide) (by decide)
  intro dk hdk
  fin_cases hdk <;> exact ⟨by decide, by decide⟩

theorem getField_normalizeIssue_soma {r n : Rec}
    (h : normalizeIssue r = .ok n) :
    getField n "soma_holding_amount" = getField r "soma_holding_amount" := by
  refine getField_normalizeIssue_ok h ?_ (by decide) (by decide)
  intro dk hdk
  fin_cases hdk <;> exact ⟨by decide, by decide⟩

/-! ### Pipeline inversion lemmas -/

theorem buildTermEntry_ok_inv {kf : Rec → Except Err (List Int)} {soma : Bool}
    {term_issues : List Rec} {te : TermEntry}
    (h : buildTermEntry kf soma term_issues = .ok te) :
    ∃ kps amounts,
      mapE (fun r => (kf r).map (fun k => (k, r))) term_issues = .ok kps ∧
      mapE offeringAmountInt ((pySort (fun p q => keyLe p.1 q.1) kps).map (·.2))
        = .ok amounts ∧
      te.term_total = intSum amounts ∧
      te.issues = ((pySort (fun p q => keyLe p.1 q.1) kps).map (·.2)).map stripPyobj ∧
      ((soma = true ∧ ∃ sam,
          mapE somaHoldingAmountInt
            ((pySort (fun p q => keyLe p.1 q.1) kps).map (·.2)) = .ok sam ∧
          te.soma_term_total = some (intSum sam)) ∨
       (soma = false ∧ te.soma_term_total = none)) := by
  unfold buildTermEntry at h
  cases hkps : mapE (fun r => (kf r).map (fun k => (k, r))) term_issues with
  | error e => rw [hkps] at h; cases h
  | ok kps =>
    rw [hkps] at h
    dsimp only at h
    cases hamt : mapE offeringAmountInt
        ((pySort (fun p q => keyLe p.1 q.1) kps).map (·.2)) with
    | error e => rw [hamt] at h; cases h
    | ok amounts =>
      rw [hamt] at h
      cases soma with
      | false =>
        rw [if_neg (by decide : ¬ (false = true))] at h
        dsimp only at h
        cases h
        exact ⟨kps, amounts, rfl, hamt, rfl, rfl, Or.inr ⟨rfl, rfl⟩⟩
      | true =>
        rw [if_pos rfl] at h
        cases hsam : mapE somaHoldingAmountInt
            ((pySort (fun p q => keyLe p.1 q.1) kps).map (·.2)) with
        | error e => rw [hsam] at h; cases h
        | ok sam =>
          rw [hsam] at h
          dsimp only at h
          cases h
          exact ⟨kps, amounts, rfl, hamt, rfl, rfl,
            Or.inl ⟨rfl, sam, hsam, rfl⟩⟩

theorem buildBucket_ok_inv {kf : Rec → Except Err (List Int)} {soma : Bool}
    {k : List Int} {issues : List Rec} {be : BucketEntry}
    (h : buildBucket kf soma k issues = .ok be) :
    ∃ tps terms,
      mapE (fun r => (sort_by_term r).map (fun t => (t, r))) issues = .ok tps ∧
      mapE (fun tg => (buildTermEntry kf soma (tg.2.map (·.2))).map
          (fun te => (tg.1, te)))
        (groupByKey (·.1) (pySort (fun p q => strLe p.1 q.1) tps)) = .ok terms ∧
      be = ⟨k, sort_by_aggregation_normalization k,
        intSum (terms.map (fun p => p.2.term_total)),
        (if soma then
          some (intSum (terms.map (fun p => p.2.soma_term_total.getD 0)))
         else none),
        terms⟩ := by
  unfold buildBucket at h
  cases htps : mapE (fun r => (sort_by_term r).map (fun t => (t, r))) issues with
  | error e => rw [htps] at h; cases h
  | ok tps =>
    rw [htps] at h
    dsimp only at h
    cases hterms : mapE (fun tg => (buildTermEntry kf soma (tg.2.map (·.2))).map
        (fun te => (tg.1, te)))
        (groupByKey (·.1) (pySort (fun p q => strLe p.1 q.1) tps)) with
    | error e => rw [hterms] at h; cases h
    | ok terms =>
      rw [hterms] at h
      dsimp only at h
      cases h
      exact ⟨tps, terms, rfl, hterms, rfl⟩

theorem reportFromDeduped_ok_inv {deduped : List Rec}
    {kf : Rec → Except Err (List Int)} {soma : Bool} {rep : List BucketEntry}
    (h : reportFromDeduped deduped kf soma = .ok rep) :
    ∃ normalized pairs,
      normalize_dates deduped = .ok normalized ∧
      mapE (fun r => (kf r).map (fun k => (k, r))) normalized = .ok pairs ∧
      mapE (fun g => buildBucket kf soma g.1 (g.2.map (·.2)))
        (groupByKey (·.1) (pySort (fun p q => keyLe p.1 q.1) pairs)) = .ok rep := by
  unfold reportFromDeduped at h
  cases hn : normalize_dates deduped with
  | error e => rw [hn] at h; cases h
  | ok normalized =>
    rw [hn] at h
    dsimp only at h
    cases hp : mapE (fun r => (kf r).map (fun k => (k, r))) normalized with
    | error e => rw [hp] at h; cases h
    | ok pairs =>
      rw [hp] at h
      dsimp only at h
      exact ⟨normalized, pairs, rfl, hp, h⟩

/-! ### Single-step normalizer evaluation lemmas -/

theorem processDateKey_skip {r : Rec} {dk : String}
    (h : truthyO (getField r dk) = false) : processDateKey r dk = .ok r := by
  unfold processDateKey
  cases hg : getField r dk with
  | none => rfl
  | some v =>
    rw [hg] at h
    dsimp only
    rw [if_neg (by simp [truthyO] at h; simp [h])]

theorem parseDateTime_ne_empty {s : String} {d : DateTimeV}
    (h : parseDateTime s = some d) : s ≠ "" := by
  intro hc
  subst hc
  rw [show parseDateTime "" = none from rfl] at h
  cases h

theorem processDateKey_parsed {r : Rec} {dk : String} {s : String}
    {d : DateTimeV} (hg : getField r dk = some (.s s))
    (hp : parseDateTime s = some d) :
    processDateKey r dk =
      .ok (setField (setField r (dk ++ "_pyobj") (.dt d)) dk (.s (fmtDate d))) := by
  unfold processDateKey
  rw [hg]
  dsimp only
  rw [if_pos (by simp [truthyV, parseDateTime_ne_empty hp])]
  rw [hp]

theorem maturityStep_error_of_untruthy {r : Rec}
    (h3 : truthyO (getField r "maturingDate_pyobj") = false)
    (h4 : truthyO (getField r "maturityDate_pyobj") = false) :
    ∀ n, maturityStep r ≠ .ok n := by
  intro n hok
  rcases maturityStep_ok_inv hok with ⟨d, -, hcase⟩
  rcases hcase with ⟨h1, -⟩ | ⟨⟨h1, -⟩, -⟩ | ⟨-, hg⟩
  · rw [h3] at h1; cases h1
  · rw [h3] at h1; cases h1
  · rw [hg] at h4; cases h4

theorem normalizeKeys_all_inv {r r₅ : Rec}
    (h : normalizeKeys r dateKeysToNormalize = .ok r₅) :
    ∃ r₁ r₂ r₃ r₄,
      processDateKey r "issueDate" = .ok r₁ ∧
      processDateKey r₁ "announcementDate" = .ok r₂ ∧
      processDateKey r₂ "auctionDate" = .ok r₃ ∧
      processDateKey r₃ "maturingDate" = .ok r₄ ∧
      processDateKey r₄ "maturityDate" = .ok r₅ := by
  unfold dateKeysToNormalize at h
  rcases normalizeKeys_ok_chain h with ⟨r₁, p₁, h⟩
  rcases normalizeKeys_ok_chain h with ⟨r₂, p₂, h⟩
  rcases normalizeKeys_ok_chain h with ⟨r₃, p₃, h⟩
  rcases normalizeKeys_ok_chain h with ⟨r₄, p₄, h⟩
  rcases normalizeKeys_ok_chain h with ⟨r₅', p₅, h⟩
  unfold normalizeKeys at h
  cases h
  exact ⟨r₁, r₂, r₃, r₄, p₁, p₂, p₃, p₄, p₅⟩

/-- A record with neither maturity date truthy (and no parsed helpers) makes
`normalizeIssue` raise. -/
theorem normalizeIssue_error_of_no_maturity {r : Rec}
    (h1 : truthyO (getField r "maturingDate") = false)
    (h2 : truthyO (getField r "maturityDate") = false)
    (h3 : truthyO (getField r "maturingDate_pyobj") = false)
    (h4 : truthyO (getField r "maturityDate_pyobj") = false) :
    ∀ n, normalizeIssue r ≠ .ok n := by
  intro n hok
  rcases normalizeIssue_ok_inv hok with ⟨r₅, hks, hm⟩
  rcases normalizeKeys_all_inv hks with ⟨r₁, r₂, r₃, r₄, p₁, p₂, p₃, p₄, p₅⟩
  have pres3 : ∀ k : String, k ≠ "issueDate" → k ≠ "issueDate_pyobj" →
      k ≠ "announcementDate" → k ≠ "announcementDate_pyobj" →
      k ≠ "auctionDate" → k ≠ "auctionDate_pyobj" →
      getField r₃ k = getField r k := by
    intro k n1 n2 n3 n4 n5 n6
    rw [getField_processDateKey_ok p₃ n5 n6,
      getField_processDateKey_ok p₂ n3 n4,
      getField_processDateKey_ok p₁ n1 n2]
  have hmg3 : getField r₃ "maturingDate" = getField r "maturingDate" :=
    pres3 _ (by decide) (by decide) (by decide) (by decide) (by decide) (by decide)
  have hmgp3 : getField r₃ "maturingDate_pyobj" = getField r "maturingDate_pyobj" :=
    pres3 _ (by decide) (by decide) (by decide) (by decide) (by decide) (by decide)
  have hmt3 : getField r₃ "maturityDate" = getField r "maturityDate" :=
    pres3 _ (by decide) (by decide) (by decide) (by decide) (by decide) (by decide)
  have hmtp3 : getField r₃ "maturityDate_pyobj" = getField r "maturityDate_pyobj" :=
    pres3 _ (by decide) (by decide) (by decide) (by decide) (by decide) (by decide)
  have hskip4 : processDateKey r₃ "maturingDate" = .ok r₃ :=
    processDateKey_skip (by rw [hmg3]; exact h1)
  have hr4 : r₄ = r₃ := by
    rw [hskip4] at p₄
    cases p₄
    rfl
  subst hr4
  have hskip5 : processDateKey r₄ "maturityDate" = .ok r₄ :=
    processDateKey_skip (by rw [hmt3]; exact h2)
  have hr5 : r₅ = r₄ := by
    rw [hskip5] at p₅
    cases p₅
    rfl
  subst hr5
  exact maturityStep_error_of_untruthy
    (by rw [hmgp3]; exact h3) (by rw [hmtp3]; exact h4) n hm

theorem reportFromDeduped_error_of_normalize {l : List Rec}
    {kf : Rec → Except Err (List Int)} {soma : Bool} {e : Err}
    (h : normalize_dates l = .error e) :
    reportFromDeduped l kf soma = .error e := by
  unfold reportFromDeduped
  rw [h]

theorem canonRec_mem_dedupCanon {results : List Rec} {r : Rec}
    (h : r ∈ results) : canonRec r ∈ dedupCanon results :=
  mem_dedupFirst.mpr (List.mem_map.mpr ⟨r, h, rfl⟩)

/-! ## Claim theorems -/

/-- A record carrying only a parsed issue date of Jan 7 2018 (day-of-year 7). -/
def recJan7 : Rec := [("issueDate_pyobj", .dt ⟨2018, 1, 7, 0, 0, 0⟩)]

/-- A record carrying only a parsed issue date of Jan 3 2018. -/
def recJan3 : Rec := [("issueDate_pyobj", .dt ⟨2018, 1, 3, 0, 0, 0⟩)]

/-- A record carrying only a parsed issue date of Jan 10 2018. -/
def recJan10 : Rec := [("issueDate_pyobj", .dt ⟨2018, 1, 10, 0, 0, 0⟩)]

/-- C2, counterexample: the weekly bucket key of a date with day-of-year 7
(Jan 7 2018) is `(2018, 2)`, whereas the claimed formula
`floor((day_of_year - 1) / 7) + 1` yields week `(7 - 1) / 7 + 1 = 1` — so
day-of-year 1 through 7 does NOT all map to week 1. -/
theorem c2_week_formula_counterexample :
    sort_by_week_base recJan7 "issueDate_pyobj" = .ok [2018, 2] ∧
    dayOfYear ⟨2018, 1, 7, 0, 0, 0⟩ = 7 ∧
    (7 - 1) / 7 + 1 = 1 ∧ (2 : Int) ≠ 1 := by
  refine ⟨by decide, by decide, by decide, by decide⟩

/-- C2 (amended): the weekly bucket key is `(year, w)` with
`w = floor(day_of_year / 7) + 1`, characterised by
`7 * (w - 1) ≤ day_of_year < 7 * w` — so day-of-year 1 through 6 maps to
week 1 and 7 through 13 to week 2; Jan 3 2018 still maps to `(2018, 1)` and
Jan 10 2018 to `(2018, 2)`. -/
theorem c2_week_bucketing_amended :
    (∀ (r : Rec) (attr : String) (d : DateTimeV),
       getField r attr = some (.dt d) →
       ∃ w : Nat, sort_by_week_base r attr = .ok [(d.year : Int), (w : Int)] ∧
         7 * (w - 1) ≤ dayOfYear d ∧ dayOfYear d < 7 * w ∧ 1 ≤ w) ∧
    sort_by_week_base recJan3 "issueDate_pyobj" = .ok [2018, 1] ∧
    sort_by_week_base recJan10 "issueDate_pyobj" = .ok [2018, 2] := by
  refine ⟨?_, by decide, by decide⟩
  intro r attr d h
  refine ⟨dayOfYear d / 7 + 1, ?_, by omega, by omega, by omega⟩
  unfold sort_by_week_base getDtAttr
  rw [h]
  rfl

/-- C2 witness: the amended bucketing law instantiated on the concrete
Jan 7 2018 record. -/
theorem c2_week_bucketing_amended_witness :
    ∃ w : Nat, sort_by_week_base recJan7 "issueDate_pyobj" =
        .ok [(2018 : Int), (w : Int)] ∧
      7 * (w - 1) ≤ 7 ∧ 7 < 7 * w ∧ 1 ≤ w := by
  have h := c2_week_bucketing_amended.1 recJan7 "issueDate_pyobj"
    ⟨2018, 1, 7, 0, 0, 0⟩ (by decide)
  have hd : dayOfYear ⟨2018, 1, 7, 0, 0, 0⟩ = 7 := by decide
  simpa [hd] using h

/-- A record with an issue date but with neither `maturingDate` nor
`maturityDate`. -/
def recNoMaturity : Rec :=
  [("cusip", .s "912828CC3"), ("securityTerm", .s "5-Year"),
   ("offeringAmount", .s "1000"), ("issueDate", .s "2020-01-02T00:00:00")]

/-- C3, counterexample: a record with neither maturity date does NOT pass
through normalization silently — `_normalize_dates` raises a `TypeError`
(from `strftime(None, ...)`), and so does the whole `produce_report` call
even when the grouping key is the non-maturity issue date. -/
theorem c3_no_maturity_counterexample :
    normalize_dates [recNoMaturity] = .error Err.typeError ∧
    produce_report [recNoMaturity] sort_by_week_issued false =
      .error Err.typeError := by
  refine ⟨by decide, by decide⟩

/-- C3 (amended): a record with neither `maturingDate` nor `maturityDate`
truthy (and no parsed maturity helpers) makes `_normalize_dates` raise for
any batch containing it, and makes every `produce_report` call whose input
contains it fail — regardless of the chosen bucket key function, so such a
record is not processed even by aggregation keyed on a non-maturity date. -/
theorem c3_no_maturity_raises_amended (l₁ l₂ : List Rec) (r : Rec)
    (h1 : truthyO (getField r "maturingDate") = false)
    (h2 : truthyO (getField r "maturityDate") = false)
    (h3 : truthyO (getField r "maturingDate_pyobj") = false)
    (h4 : truthyO (getField r "maturityDate_pyobj") = false) :
    (∃ e, normalize_dates (l₁ ++ r :: l₂) = .error e) ∧
    (∀ (results : List Rec) (kf : Rec → Except Err (List Int)) (soma : Bool),
      KeysNodup r → r ∈ results →
      ∃ e, produce_report results kf soma = .error e) := by
  constructor
  · exact mapE_error_of_mem
      (List.mem_append.mpr (Or.inr (List.mem_cons_self _ _)))
      (normalizeIssue_error_of_no_maturity h1 h2 h3 h4)
  · intro results kf soma hnd hmem
    have hcanon := canonRec_mem_dedupCanon hmem
    have herr : ∀ n, normalizeIssue (canonRec r) ≠ .ok n := by
      apply normalizeIssue_error_of_no_maturity <;>
        rw [getField_canonRec hnd] <;> assumption
    rcases mapE_error_of_mem hcanon herr with ⟨e, he⟩
    exact ⟨e, reportFromDeduped_error_of_normalize he⟩

/-- C3 witness: the amended failure law instantiated on the concrete
no-maturity record. -/
theorem c3_no_maturity_raises_amended_witness :
    (∃ e, normalize_dates ([] ++ recNoMaturity :: []) = .error e) ∧
    ∃ e, produce_report [recNoMaturity] sort_by_week_issued false = .error e := by
  have h := c3_no_maturity_raises_amended [] [] recNoMaturity
    (by decide) (by decide) (by decide) (by decide)
  exact ⟨h.1, h.2 [recNoMaturity] sort_by_week_issued false
    (by unfold KeysNodup; decide) (List.mem_singleton.mpr rfl)⟩

/-- C1: `_normalize_dates` derives `actual_maturity` as the later (maximum)
of the two parsed maturity dates when both `maturingDate` and `maturityDate`
are present, and as the single present one when exactly one is present (the
other absent or empty, with no pre-existing parsed helper). The derived
value is stored both as the parsed helper and as its `'%Y-%m-%d'` string. -/
theorem c1_actual_maturity :
    (∀ (r n : Rec) (s₁ s₂ : String) (d₁ d₂ : DateTimeV),
       getField r "maturingDate" = some (.s s₁) → parseDateTime s₁ = some d₁ →
       getField r "maturityDate" = some (.s s₂) → parseDateTime s₂ = some d₂ →
       normalizeIssue r = .ok n →
       ∃ m, (m = d₁ ∨ m = d₂) ∧ dtLt m d₁ = false ∧ dtLt m d₂ = false ∧
         getField n "actual_maturity_pyobj" = some (.dt m) ∧
         getField n "actual_maturity" = some (.s (fmtDate m))) ∧
    (∀ (r n : Rec) (s₁ : String) (d₁ : DateTimeV),
       getField r "maturingDate" = some (.s s₁) → parseDateTime s₁ = some d₁ →
       truthyO (getField r "maturityDate") = false →
       getField r "maturityDate_pyobj" = none →
       normalizeIssue r = .ok n →
       getField n "actual_maturity_pyobj" = some (.dt d₁) ∧
       getField n "actual_maturity" = some (.s (fmtDate d₁))) ∧
    (∀ (r n : Rec) (s₂ : String) (d₂ : DateTimeV),
       truthyO (getField r "maturingDate") = false →
       getField r "maturingDate_pyobj" = none →
       getField r "maturityDate" = some (.s s₂) → parseDateTime s₂ = some d₂ →
       normalizeIssue r = .ok n →
       getField n "actual_maturity_pyobj" = some (.dt d₂) ∧
       getField n "actual_maturity" = some (.s (fmtDate d₂))) := by
  have pres3 : ∀ {r r₁ r₂ r₃ : Rec},
      processDateKey r "issueDate" = .ok r₁ →
      processDateKey r₁ "announcementDate" = .ok r₂ →
      processDateKey r₂ "auctionDate" = .ok r₃ →
      ∀ k : String, k ≠ "issueDate" → k ≠ "issueDate_pyobj" →
        k ≠ "announcementDate" → k ≠ "announcementDate_pyobj" →
        k ≠ "auctionDate" → k ≠ "auctionDate_pyobj" →
        getField r₃ k = getField r k := by
    intro r r₁ r₂ r₃ p₁ p₂ p₃ k n1 n2 n3 n4 n5 n6
    rw [getField_processDateKey_ok p₃ n5 n6,
      getField_processDateKey_ok p₂ n3 n4,
      getField_processDateKey_ok p₁ n1 n2]
  refine ⟨?_, ?_, ?_⟩
  · intro r n s₁ s₂ d₁ d₂ hg1 hp1 hg2 hp2 hok
    rcases normalizeIssue_ok_inv hok with ⟨r₅, hks, hm⟩
    rcases normalizeKeys_all_inv hks with ⟨r₁, r₂, r₃, r₄, p₁, p₂, p₃, p₄, p₅⟩
    have hmg3 : getField r₃ "maturingDate" = some (.s s₁) := by
      rw [pres3 p₁ p₂ p₃ _ (by decide) (by decide) (by decide) (by decide)
        (by decide) (by decide)]
      exact hg1
    have hr4 : r₄ = setField (setField r₃ ("maturingDate" ++ "_pyobj") (.dt d₁))
        "maturingDate" (.s (fmtDate d₁)) := by
      rw [processDateKey_parsed hmg3 hp1] at p₄
      cases p₄
      rfl
    have hmt4 : getField r₄ "maturityDate" = some (.s s₂) := by
      rw [hr4, getField_setField_ne _ _ (by decide),
        getField_setField_ne _ _ (by decide),
        pres3 p₁ p₂ p₃ _ (by decide) (by decide) (by decide) (by decide)
          (by decide) (by decide)]
      exact hg2
    have hr5 : r₅ = setField (setField r₄ ("maturityDate" ++ "_pyobj") (.dt d₂))
        "maturityDate" (.s (fmtDate d₂)) := by
      rw [processDateKey_parsed hmt4 hp2] at p₅
      cases p₅
      rfl
    have hmgp5 : getField r₅ "maturingDate_pyobj" = some (.dt d₁) := by
      rw [hr5, getField_setField_ne _ _ (by decide),
        getField_setField_ne _ _ (by decide), hr4,
        getField_setField_ne _ _ (by decide)]
      exact getField_setField_same _ _ _
    have hmtp5 : getField r₅ "maturityDate_pyobj" = some (.dt d₂) := by
      rw [hr5, getField_setField_ne _ _ (by decide)]
      exact getField_setField_same _ _ _
    rcases maturityStep_ok_inv hm with ⟨d, hn, hcase⟩
    rcases hcase with ⟨-, -, e₁, e₂, he₁, he₂, hd⟩ | ⟨⟨-, hf⟩, -⟩ | ⟨hf, -⟩
    · rw [hmgp5] at he₁
      rw [hmtp5] at he₂
      cases he₁
      cases he₂
      refine ⟨d, ?_, ?_, ?_, ?_, ?_⟩
      · rcases hlt : dtLt d₂ d₁ with - | -
        · right; rw [hd, if_neg]; simp [hlt]
        · left; rw [hd, if_pos hlt]
      · rcases hlt : dtLt d₂ d₁ with - | -
        · rw [hd, if_neg (by simp [hlt]), hlt]
        · rw [hd, if_pos hlt, dtLt_irrefl]
      · rcases hlt : dtLt d₂ d₁ with - | -
        · rw [hd, if_neg (by simp [hlt]), dtLt_irrefl]
        · rw [hd, if_pos hlt]
          cases hlt2 : dtLt d₁ d₂
          · rfl
          · exact absurd (dtLt_asymm hlt2 hlt) (fun f => f)
      · rw [hn, getField_setField_ne _ _ (by decide)]
        exact getField_setField_same _ _ _
      · rw [hn]
        exact getField_setField_same _ _ _
    · rw [hmtp5] at hf
      cases hf
    · rw [hmgp5] at hf
      cases hf
  · intro r n s₁ d₁ hg1 hp1 ht2 hgp2 hok
    rcases normalizeIssue_ok_inv hok with ⟨r₅, hks, hm⟩
    rcases normalizeKeys_all_inv hks with ⟨r₁, r₂, r₃, r₄, p₁, p₂, p₃, p₄, p₅⟩
    have hmg3 : getField r₃ "maturingDate" = some (.s s₁) := by
      rw [pres3 p₁ p₂ p₃ _ (by decide) (by decide) (by decide) (by decide)
        (by decide) (by decide)]
      exact hg1
    have hr4 : r₄ = setField (setField r₃ ("maturingDate" ++ "_pyobj") (.dt d₁))
        "maturingDate" (.s (fmtDate d₁)) := by
      rw [processDateKey_parsed hmg3 hp1] at p₄
      cases p₄
      rfl
    have hmt4 : truthyO (getField r₄ "maturityDate") = false := by
      rw [hr4, getField_setField_ne _ _ (by decide),
        getField_setField_ne _ _ (by decide),
        pres3 p₁ p₂ p₃ _ (by decide) (by decide) (by decide) (by decide)
          (by decide) (by decide)]
      exact ht2
    have hr5 : r₅ = r₄ := by
      rw [processDateKey_skip hmt4] at p₅
      cases p₅
      rfl
    subst hr5
    have hmgp5 : getField r₅ "maturingDate_pyobj" = some (.dt d₁) := by
      rw [hr4, getField_setField_ne _ _ (by decide)]
      exact getField_setField_same _ _ _
    have hmtp5 : getField r₅ "maturityDate_pyobj" = none := by
      rw [hr4, getField_setField_ne _ _ (by decide),
        getField_setField_ne _ _ (by decide),
        pres3 p₁ p₂ p₃ _ (by decide) (by decide) (by decide) (by decide)
          (by decide) (by decide)]
      exact hgp2
    rcases maturityStep_ok_inv hm with ⟨d, hn, hcase⟩
    rcases hcase with ⟨-, htr, -⟩ | ⟨-, he⟩ | ⟨hf, -⟩
    · rw [hmtp5] at htr
      cases htr
    · rw [hmgp5] at he
      cases he
      constructor
      · rw [hn, getField_setField_ne _ _ (by decide)]
        exact getField_setField_same _ _ _
      · rw [hn]
        exact getField_setField_same _ _ _
    · rw [hmgp5] at hf
      cases hf
  · intro r n s₂ d₂ ht1 hgp1 hg2 hp2 hok
    rcases normalizeIssue_ok_inv hok with ⟨r₅, hks, hm⟩
    rcases normalizeKeys_all_inv hks with ⟨r₁, r₂, r₃, r₄, p₁, p₂, p₃, p₄, p₅⟩
    have hmg3 : truthyO (getField r₃ "maturingDate") = false := by
      rw [pres3 p₁ p₂ p₃ _ (by decide) (by decide) (by decide) (by decide)
        (by decide) (by decide)]
      exact ht1
    have hr4 : r₄ = r₃ := by
      rw [processDateKey_skip hmg3] at p₄
      cases p₄
      rfl
    subst hr4
    have hmt4 : getField r₄ "maturityDate" = some (.s s₂) := by
      rw [pres3 p₁ p₂ p₃ _ (by decide) (by decide) (by decide) (by decide)
        (by decide) (by decide)]
      exact hg2
    have hr5 : r₅ = setField (setField r₄ ("maturityDate" ++ "_pyobj") (.dt d₂))
        "maturityDate" (.s (fmtDate d₂)) := by
      rw [processDateKey_parsed hmt4 hp2] at p₅
      cases p₅
      rfl
    have hmgp5 : truthyO (getField r₅ "maturingDate_pyobj") = false := by
      rw [hr5, getField_setField_ne _ _ (by decide),
        getField_setField_ne _ _ (by decide),
        pres3 p₁ p₂ p₃ _ (by decide) (by decide) (by decide) (by decide)
          (by decide) (by decide), hgp1]
      rfl
    have hmtp5 : getField r₅ "maturityDate_pyobj" = some (.dt d₂) := by
      rw [hr5, getField_setField_ne _ _ (by decide)]
      exact getField_setField_same _ _ _
    rcases maturityStep_ok_inv hm with ⟨d, hn, hcase⟩
    rcases hcase with ⟨htr, -⟩ | ⟨⟨htr, -⟩, -⟩ | ⟨-, he⟩
    · rw [hmgp5] at htr
      cases htr
    · rw [hmgp5] at htr
      cases htr
    · rw [hmtp5] at he
      cases he
      constructor
      · rw [hn, getField_setField_ne _ _ (by decide)]
        exact getField_setField_same _ _ _
      · rw [hn]
        exact getField_setField_same _ _ _

/-- A record with both maturity dates present (a re-opened issue whose
`maturingDate` lies later than its `maturityDate`). -/
def recBothMaturity : Rec :=
  [("cusip", .s "912828DD4"), ("maturingDate", .s "2020-06-15T00:00:00"),
   ("maturityDate", .s "2020-06-01T00:00:00")]

/-- C1 witness: the maturity-derivation law instantiated on a concrete
record carrying both dates. -/
theorem c1_actual_maturity_witness :
    ∃ (n : Rec) (m : DateTimeV),
      normalizeIssue recBothMaturity = .ok n ∧
      (m = ⟨2020, 6, 15, 0, 0, 0⟩ ∨ m = ⟨2020, 6, 1, 0, 0, 0⟩) ∧
      dtLt m ⟨2020, 6, 15, 0, 0, 0⟩ = false ∧
      dtLt m ⟨2020, 6, 1, 0, 0, 0⟩ = false ∧
      getField n "actual_maturity_pyobj" = some (.dt m) ∧
      getField n "actual_maturity" = some (.s (fmtDate m)) := by
  have hIsOk : (normalizeIssue recBothMaturity).isOk = true := by decide
  cases hok : normalizeIssue recBothMaturity with
  | error e =>
    rw [hok] at hIsOk
    simp [Except.isOk, Except.toBool] at hIsOk
  | ok n =>
    rcases c1_actual_maturity.1 recBothMaturity n
        "2020-06-15T00:00:00" "2020-06-01T00:00:00"
        ⟨2020, 6, 15, 0, 0, 0⟩ ⟨2020, 6, 1, 0, 0, 0⟩
        (by decide) (by decide) (by decide) (by decide) hok with
      ⟨m, h1, h2, h3, h4, h5⟩
    exact ⟨n, m, rfl, h1, h2, h3, h4, h5⟩

theorem map_id_of_forall {f : α → α} :
    ∀ {l : List α}, (∀ x ∈ l, f x = x) → l.map f = l := by
  intro l
  induction l with
  | nil => intro _; rfl
  | cons x xs ih =>
    intro h
    rw [List.map_cons, h x (List.mem_cons_self _ _),
      ih (fun y hy => h y (List.mem_cons_of_mem _ hy))]

theorem canonRec_idem (r : Rec) : canonRec (canonRec r) = canonRec r :=
  pySort_of_pairwise (canonRec_pairwise r)

/-- C8: deduplication is idempotent — dedup of a deduplicated collection is
that collection again — and order-insensitive: permuting the input leaves
the output set of records unchanged. -/
theorem c8_dedup_idem_order_insensitive :
    (∀ l : List Rec, dedupCanon (dedupCanon l) = dedupCanon l) ∧
    (∀ l₁ l₂ : List Rec, List.Perm l₁ l₂ →
      ∀ r, r ∈ dedupCanon l₁ ↔ r ∈ dedupCanon l₂) := by
  constructor
  · intro l
    show dedupFirst ((dedupCanon l).map canonRec) = dedupCanon l
    rw [map_id_of_forall (fun x hx => by
      rcases List.mem_map.mp (mem_dedupFirst.mp hx) with ⟨r, -, rfl⟩
      exact canonRec_idem r)]
    exact dedupFirst_idem _
  · intro l₁ l₂ hp r
    rw [show dedupCanon l₁ = dedupFirst (l₁.map canonRec) from rfl,
      show dedupCanon l₂ = dedupFirst (l₂.map canonRec) from rfl,
      mem_dedupFirst, mem_dedupFirst]
    exact (hp.map canonRec).mem_iff

/-- C8 witness: idempotence and order-insensitivity on concrete two-record
collections. -/
theorem c8_dedup_witness :
    dedupCanon (dedupCanon [recBothMaturity, recNoMaturity]) =
      dedupCanon [recBothMaturity, recNoMaturity] ∧
    ∀ r, r ∈ dedupCanon [recBothMaturity, recNoMaturity] ↔
      r ∈ dedupCanon [recNoMaturity, recBothMaturity] :=
  ⟨c8_dedup_idem_order_insensitive.1 _,
   c8_dedup_idem_order_insensitive.2 _ _ (List.Perm.swap _ _ _)⟩

/-- The canonical re-opened record written with zero-padded date fields. -/
def recPadded : Rec :=
  [("cusip", .s "912828EE5"), ("maturityDate", .s "2020-06-01T00:00:00")]

/-- The same record content with the (also accepted) unpadded spelling of
the same date. -/
def recUnpadded : Rec :=
  [("cusip", .s "912828EE5"), ("maturityDate", .s "2020-6-1T0:0:0")]

/-- C4, counterexample: two raw records that normalize to the *same*
normalized record (identical field-value pairs including the parsed-date
helpers) are nevertheless NOT collapsed by deduplication, because the
dedup step of `produce_report` runs on the raw records before
normalization: `strptime` accepts both `2020-06-01T00:00:00` and
`2020-6-1T0:0:0`, which differ as raw strings. -/
theorem c4_dedup_counterexample :
    normalizeIssue recPadded = normalizeIssue recUnpadded ∧
    (∃ n, normalizeIssue recPadded = .ok n) ∧
    recPadded ≠ recUnpadded ∧
    (dedupCanon [recPadded, recUnpadded]).length = 2 := by
  refine ⟨by decide, ?_, by decide, by decide⟩
  cases hok : normalizeIssue recPadded with
  | error e =>
    have hIsOk : (normalizeIssue recPadded).isOk = true := by decide
    rw [hok] at hIsOk
    simp [Except.isOk, Except.toBool] at hIsOk
  | ok n => exact ⟨n, rfl⟩

/-- C4 (amended): deduplication collapses two records into one iff all their
RAW field-value pairs are equal (content equality of the raw dicts,
independent of field enumeration order) — dedup runs before normalization,
so records that only normalize to the same thing are not collapsed; two
records differing in a field present in one and absent in the other are not
duplicates and both survive. -/
theorem c4_dedup_raw_equality (r₁ r₂ : Rec) (h₁ : KeysNodup r₁)
    (h₂ : KeysNodup r₂) :
    ((dedupCanon [r₁, r₂]).length = 1 ↔ ∀ k, getField r₁ k = getField r₂ k) ∧
    ((dedupCanon [r₁, r₂]).length = 2 ↔
      ¬ ∀ k, getField r₁ k = getField r₂ k) ∧
    ((∃ k v, getField r₁ k = some v ∧ getField r₂ k = none) →
      (dedupCanon [r₁, r₂]).length = 2) := by
  have hform : dedupCanon [r₁, r₂] =
      if canonRec r₂ = canonRec r₁ then [canonRec r₁]
      else [canonRec r₁, canonRec r₂] := by
    show dedupAux [] [canonRec r₁, canonRec r₂] = _
    unfold dedupAux
    rw [if_neg (List.not_mem_nil _)]
    unfold dedupAux
    by_cases hc : canonRec r₂ ∈ [canonRec r₁]
    · rw [if_pos hc, if_pos (List.mem_singleton.mp hc)]
      rfl
    · rw [if_neg hc, if_neg (fun h => hc (List.mem_singleton.mpr h))]
      rfl
  have hiff : canonRec r₂ = canonRec r₁ ↔ ∀ k, getField r₁ k = getField r₂ k := by
    rw [canonRec_eq_iff_getField h₂ h₁]
    constructor
    · intro h k; exact (h k).symm
    · intro h k; exact (h k).symm
  refine ⟨?_, ?_, ?_⟩
  · rw [hform]
    split
    · rename_i hc
      simp only [List.length_singleton, true_iff]
      exact hiff.mp hc
    · rename_i hc
      simp only [List.length_cons, List.length_singleton]
      constructor
      · intro h; cases h
      · intro h; exact absurd (hiff.mpr h) hc
  · rw [hform]
    split
    · rename_i hc
      simp only [List.length_singleton]
      constructor
      · intro h; cases h
      · intro h; exact absurd (hiff.mp hc) h
    · rename_i hc
      constructor
      · intro _
        exact fun h => hc (hiff.mpr h)
      · intro _
        rfl
  · intro ⟨k, v, hv1, hv2⟩
    rw [hform, if_neg (fun hc => by
      have := hiff.mp hc k
      rw [hv1, hv2] at this
      cases this)]
    rfl

/-- The canonical re-opened record with one extra field
(`bidToCoverRatio`), as surfaced by a fuller upstream fetch. -/
def recPaddedExtra : Rec :=
  [("cusip", .s "912828EE5"), ("maturityDate", .s "2020-06-01T00:00:00"),
   ("bidToCoverRatio", .s "2.4")]

/-- C4 witness: the raw-content dedup law instantiated on concrete records,
one with `bidToCoverRatio` present and one without — both survive. -/
theorem c4_dedup_raw_equality_witness :
    ((dedupCanon [recPaddedExtra, recPadded]).length = 1 ↔
      ∀ k, getField recPaddedExtra k = getField recPadded k) ∧
    (dedupCanon [recPaddedExtra, recPadded]).length = 2 := by
  have h := c4_dedup_raw_equality recPaddedExtra recPadded
    (by unfold KeysNodup; decide) (by unfold KeysNodup; decide)
  exact ⟨h.1, h.2.2 ⟨"bidToCoverRatio", .s "2.4", by decide, by decide⟩⟩

theorem offeringAmountInt_strip (r : Rec) :
    offeringAmountInt (stripPyobj r) = offeringAmountInt r := by
  unfold offeringAmountInt
  rw [getField_stripPyobj r (by decide)]

theorem somaHoldingAmountInt_strip (r : Rec) :
    somaHoldingAmountInt (stripPyobj r) = somaHoldingAmountInt r := by
  unfold somaHoldingAmountInt
  rw [getField_stripPyobj r (by decide)]

theorem mapE_map_congr {f : β → Except Err γ} {g : α → β} {f' : α → Except Err γ}
    (hfg : ∀ x, f (g x) = f' x) :
    ∀ l : List α, mapE f (l.map g) = mapE f' l := by
  intro l
  induction l with
  | nil => rfl
  | cons x xs ih =>
    simp only [List.map_cons, mapE]
    rw [hfg x, ih]

theorem mapE_tag_ok_mem {g : α → Except Err κ} {l : List α} {ps : List (κ × α)}
    (h : mapE (fun x => (g x).map (fun k => (k, x))) l = .ok ps) {x : α}
    (hx : x ∈ l) : ∃ k, g x = .ok k ∧ (k, x) ∈ ps := by
  rcases mapE_ok_mem_left h hx with ⟨y, hy, hmem⟩
  cases hg : g x with
  | error e => rw [hg] at hy; cases hy
  | ok k =>
    rw [hg] at hy
    cases hy
    exact ⟨k, rfl, hmem⟩

theorem groupByKey_exists_group [BEq κ] (key : α → κ) {l : List α} {x : α}
    (hx : x ∈ l) : ∃ kg ∈ groupByKey key l, x ∈ kg.2 := by
  rw [← groupByKey_flatten key l] at hx
  rcases List.mem_flatten.mp hx with ⟨g, hg, hxg⟩
  rcases List.mem_map.mp hg with ⟨kg, hkg, rfl⟩
  exact ⟨kg, hkg, hxg⟩

/-- C5: in every successfully produced report, each bucket's total is the
sum of its term totals, and each term total is the sum of `offeringAmount`
(as integer) over exactly the records of its member list; with the holdings
flag set, the same two laws hold for the soma totals over
`soma_holding_amount`. -/
theorem c5_totals_law (results : List Rec) (kf : Rec → Except Err (List Int))
    (soma : Bool) (rep : List BucketEntry)
    (h : produce_report results kf soma = .ok rep) :
    ∀ be ∈ rep,
      be.total = intSum (be.terms.map (fun p => p.2.term_total)) ∧
      (∀ p ∈ be.terms, ∃ ns, mapE offeringAmountInt p.2.issues = .ok ns ∧
        p.2.term_total = intSum ns) ∧
      (soma = true →
        be.soma_total =
          some (intSum (be.terms.map (fun p => p.2.soma_term_total.getD 0))) ∧
        ∀ p ∈ be.terms, ∃ ms, mapE somaHoldingAmountInt p.2.issues = .ok ms ∧
          p.2.soma_term_total = some (intSum ms)) := by
  intro be hbe
  rcases reportFromDeduped_ok_inv h with ⟨normalized, pairs, hn, hp, hrep⟩
  rcases mapE_ok_mem_right hrep hbe with ⟨g, hg, hbuild⟩
  rcases buildBucket_ok_inv hbuild with ⟨tps, terms, htps, hterms, hbeq⟩
  have hterm : ∀ p ∈ terms,
      (∃ ns, mapE offeringAmountInt p.2.issues = .ok ns ∧
        p.2.term_total = intSum ns) ∧
      (soma = true → ∃ ms, mapE somaHoldingAmountInt p.2.issues = .ok ms ∧
        p.2.soma_term_total = some (intSum ms)) := by
    intro p hpmem
    rcases mapE_ok_mem_right hterms hpmem with ⟨tg, htg, hbuildte⟩
    cases hte : buildTermEntry kf soma (tg.2.map (·.2)) with
    | error e => rw [hte] at hbuildte; cases hbuildte
    | ok te =>
      rw [hte] at hbuildte
      cases hbuildte
      rcases buildTermEntry_ok_inv hte with
        ⟨kps, amounts, hkps, hamt, htot, hiss, hsoma⟩
      have hmapE : mapE offeringAmountInt te.issues = .ok amounts := by
        rw [hiss, mapE_map_congr offeringAmountInt_strip]
        exact hamt
      refine ⟨⟨amounts, hmapE, htot⟩, ?_⟩
      intro hs
      rcases hsoma with ⟨-, sam, hsam, hstot⟩ | ⟨hfalse, -⟩
      · refine ⟨sam, ?_, hstot⟩
        rw [hiss, mapE_map_congr somaHoldingAmountInt_strip]
        exact hsam
      · rw [hs] at hfalse
        cases hfalse
  subst hbeq
  refine ⟨rfl, ?_, ?_⟩
  · intro p hpmem
    exact (hterm p hpmem).1
  · intro hs
    refine ⟨by rw [hs]; rfl, ?_⟩
    intro p hpmem
    exact (hterm p hpmem).2 hs

/-- A SOMA-enriched record: maturity date, offering amount and holdings. -/
def recSomaA : Rec :=
  [("cusip", .s "912828AA1"), ("securityTerm", .s "5-Year"),
   ("offeringAmount", .s "1000"), ("maturityDate", .s "2020-06-01T00:00:00"),
   ("soma_holding_amount", .s "500")]

/-- A second SOMA-enriched record in the same maturity month. -/
def recSomaB : Rec :=
  [("cusip", .s "912828BB2"), ("securityTerm", .s "10-Year"),
   ("offeringAmount", .s "2500"), ("maturingDate", .s "2020-06-15T00:00:00"),
   ("soma_holding_amount", .s "700")]

/-- C5 witness: the totals law instantiated on a concrete two-record
holdings report grouped by maturity month. -/
theorem c5_totals_law_witness :
    ∃ rep, produce_report [recSomaA, recSomaB] sort_by_month_maturity true
        = .ok rep ∧
      ∀ be ∈ rep,
        be.total = intSum (be.terms.map (fun p => p.2.term_total)) ∧
        (∀ p ∈ be.terms, ∃ ns, mapE offeringAmountInt p.2.issues = .ok ns ∧
          p.2.term_total = intSum ns) ∧
        (true = true →
          be.soma_total =
            some (intSum (be.terms.map (fun p => p.2.soma_term_total.getD 0))) ∧
          ∀ p ∈ be.terms, ∃ ms, mapE somaHoldingAmountInt p.2.issues = .ok ms ∧
            p.2.soma_term_total = some (intSum ms)) := by
  have hIsOk : (produce_report [recSomaA, recSomaB] sort_by_month_maturity
      true).isOk = true := by decide
  cases hok : produce_report [recSomaA, recSomaB] sort_by_month_maturity true with
  | error e =>
    rw [hok] at hIsOk
    simp [Except.isOk, Except.toBool] at hIsOk
  | ok rep => exact ⟨rep, rfl, c5_totals_law _ _ _ rep hok⟩

/-- Every record of a successfully grouped batch parses its amounts: used to
refute silent-zero totals. -/
theorem report_members_parse {deduped : List Rec}
    {kf : Rec → Except Err (List Int)} {soma : Bool} {rep : List BucketEntry}
    (h : reportFromDeduped deduped kf soma = .ok rep)
    {normalized : List Rec} (hn : normalize_dates deduped = .ok normalized)
    {nr : Rec} (hmem : nr ∈ normalized) :
    (∃ a, offeringAmountInt nr = .ok a) ∧
    (soma = true → ∃ a, somaHoldingAmountInt nr = .ok a) := by
  rcases reportFromDeduped_ok_inv h with ⟨normalized', pairs, hn', hp, hrep⟩
  have hsame : normalized' = normalized := by
    rw [hn] at hn'
    cases hn'
    rfl
  subst hsame
  rcases mapE_tag_ok_mem hp hmem with ⟨k, hk, hkp⟩
  have hsorted : (k, nr) ∈ pySort (fun p q => keyLe p.1 q.1) pairs :=
    (pySort_perm _ pairs).mem_iff.mpr hkp
  rcases groupByKey_exists_group (fun p : List Int × Rec => p.1) hsorted with
    ⟨g, hg, hgx⟩
  rcases mapE_ok_mem_left hrep hg with ⟨be, hbuild, -⟩
  rcases buildBucket_ok_inv hbuild with ⟨tps, terms, htps, hterms, -⟩
  have hnr_issues : nr ∈ g.2.map (·.2) := List.mem_map.mpr ⟨(k, nr), hgx, rfl⟩
  rcases mapE_tag_ok_mem htps hnr_issues with ⟨t, ht, htp⟩
  have htsorted : (t, nr) ∈ pySort (fun p q => strLe p.1 q.1) tps :=
    (pySort_perm _ tps).mem_iff.mpr htp
  rcases groupByKey_exists_group (fun p : String × Rec => p.1) htsorted with
    ⟨tg, htg, htgx⟩
  rcases mapE_ok_mem_left hterms htg with ⟨p, hbuildte, -⟩
  cases hte : buildTermEntry kf soma (tg.2.map (·.2)) with
  | error e => rw [hte] at hbuildte; cases hbuildte
  | ok te =>
    rcases buildTermEntry_ok_inv hte with
      ⟨kps, amounts, hkps, hamt, -, -, hsoma⟩
    have hnr_rs : nr ∈ tg.2.map (·.2) := List.mem_map.mpr ⟨(t, nr), htgx, rfl⟩
    rcases mapE_tag_ok_mem hkps hnr_rs with ⟨k', hk', hkp'⟩
    have hnr_tid : nr ∈ (pySort (fun p q => keyLe p.1 q.1) kps).map (·.2) :=
      List.mem_map.mpr ⟨(k', nr), (pySort_perm _ kps).mem_iff.mpr hkp', rfl⟩
    constructor
    · rcases mapE_ok_mem_left hamt hnr_tid with ⟨a, ha, -⟩
      exact ⟨a, ha⟩
    · intro hs
      rcases hsoma with ⟨-, sam, hsam, -⟩ | ⟨hfalse, -⟩
      · rcases mapE_ok_mem_left hsam hnr_tid with ⟨a, ha, -⟩
        exact ⟨a, ha⟩
      · rw [hs] at hfalse
        cases hfalse

/-- C6: if any deduplicated record is missing `offeringAmount` (or has a
non-numeric one), or — when the holdings flag is set — is missing
`soma_holding_amount`, the whole `produce_report` call fails with an error;
no report is produced, so no total silently treats the missing amount as
zero. -/
theorem c6_missing_amount_fails (results : List Rec)
    (kf : Rec → Except Err (List Int)) (soma : Bool) (r : Rec)
    (hmem : r ∈ dedupCanon results)
    (hbad : (∀ a, offeringAmountInt r ≠ .ok a) ∨
            (soma = true ∧ ∀ a, somaHoldingAmountInt r ≠ .ok a)) :
    ∃ e, produce_report results kf soma = .error e := by
  cases hres : produce_report results kf soma with
  | error e => exact ⟨e, rfl⟩
  | ok rep =>
    exfalso
    rcases reportFromDeduped_ok_inv hres with ⟨normalized, pairs, hn, -, -⟩
    rcases mapE_ok_mem_left hn hmem with ⟨nr, hnr, hnrmem⟩
    have hparse := report_members_parse hres hn hnrmem
    rcases hbad with hbad | ⟨hs, hbad⟩
    · rcases hparse.1 with ⟨a, ha⟩
      rw [show offeringAmountInt nr = offeringAmountInt r from by
        unfold offeringAmountInt
        rw [getField_normalizeIssue_offeringAmount hnr]] at ha
      exact hbad a ha
    · rcases hparse.2 hs with ⟨a, ha⟩
      rw [show somaHoldingAmountInt nr = somaHoldingAmountInt r from by
        unfold somaHoldingAmountInt
        rw [getField_normalizeIssue_soma hnr]] at ha
      exact hbad a ha

/-- C6 witness: a concrete record without `offeringAmount` makes the whole
aggregation call fail. -/
theorem c6_missing_amount_fails_witness :
    ∃ e, produce_report [recPadded] sort_by_month_maturity false = .error e := by
  refine c6_missing_amount_fails [recPadded] sort_by_month_maturity false
    (canonRec recPadded) (canonRec_mem_dedupCanon (List.mem_singleton.mpr rfl))
    (Or.inl ?_)
  intro a ha
  rw [show offeringAmountInt (canonRec recPadded) = .error .keyError from
    by decide] at ha
  cases ha

theorem forall₂_pairwise {R : α → β → Prop} {P : α → α → Prop}
    {Q : β → β → Prop} (himp : ∀ a b a' b', R a a' → R b b' → P a b → Q a' b') :
    ∀ {l₁ : List α} {l₂ : List β}, List.Forall₂ R l₁ l₂ →
      l₁.Pairwise P → l₂.Pairwise Q := by
  intro l₁ l₂ hf
  induction hf with
  | nil => intro _; exact List.Pairwise.nil
  | cons ha hrest ih =>
    intro hp
    rcases List.pairwise_cons.mp hp with ⟨hhead, htail⟩
    refine List.Pairwise.cons ?_ (ih htail)
    intro b' hb'
    rcases forall₂_mem_right hrest hb' with ⟨b, hbmem, hb⟩
    exact himp _ _ _ _ ha hb (hhead b hbmem)

theorem buildBucket_ok_key {kf : Rec → Except Err (List Int)} {soma : Bool}
    {k : List Int} {issues : List Rec} {be : BucketEntry}
    (h : buildBucket kf soma k issues = .ok be) : be.key = k := by
  rcases buildBucket_ok_inv h with ⟨tps, terms, -, -, rfl⟩
  rfl

/-- C7: in every successfully produced report the bucket entries appear in
strictly ascending lexicographic order of their bucket key tuples, and
inside each bucket the term entries appear in strictly ascending
lexicographic string order of term. -/
theorem c7_report_ordering (results : List Rec)
    (kf : Rec → Except Err (List Int)) (soma : Bool) (rep : List BucketEntry)
    (h : produce_report results kf soma = .ok rep) :
    rep.Pairwise (fun a b => keyLt a.key b.key = true) ∧
    ∀ be ∈ rep, be.terms.Pairwise (fun a b => strLt a.1 b.1 = true) := by
  rcases reportFromDeduped_ok_inv h with ⟨normalized, pairs, hn, hp, hrep⟩
  constructor
  · have hsorted : (pySort (fun p q => keyLe p.1 q.1) pairs).Pairwise
        (fun a b => keyLe a.1 b.1 = true) :=
      pySort_pairwise (fun p q : List Int × Rec => keyLe p.1 q.1)
        (fun a b => keyLe_total a.1 b.1)
        (fun a b c h1 h2 => keyLe_trans (a := a.1) (b := b.1) (c := c.1) h1 h2)
        pairs
    have hfst := groupByKey_fst_pairwise
      (fun p : List Int × Rec => p.1) keyLe
      (fun a b h1 h2 => keyLe_antisymm h1 h2) hsorted
    have hgroups : (groupByKey (·.1)
        (pySort (fun p q => keyLe p.1 q.1) pairs)).Pairwise
        (fun g g' : List Int × List (List Int × Rec) =>
          keyLt g.1 g'.1 = true) := by
      have := (List.pairwise_map).mp hfst
      exact this.imp (fun hab => keyLt_of_keyLe_of_ne hab.1 hab.2)
    exact forall₂_pairwise
      (fun g g' be be' hbe hbe' hlt => by
        rw [buildBucket_ok_key hbe, buildBucket_ok_key hbe']
        exact hlt)
      (mapE_ok_forall₂ hrep) hgroups
  · intro be hbe
    rcases mapE_ok_mem_right hrep hbe with ⟨g, hg, hbuild⟩
    rcases buildBucket_ok_inv hbuild with ⟨tps, terms, htps, hterms, rfl⟩
    have hsorted : (pySort (fun p q => strLe p.1 q.1) tps).Pairwise
        (fun a b => strLe a.1 b.1 = true) :=
      pySort_pairwise (fun p q : String × Rec => strLe p.1 q.1)
        (fun a b => strLe_total a.1 b.1)
        (fun a b c h1 h2 => strLe_trans (a := a.1) (b := b.1) (c := c.1) h1 h2)
        tps
    have hfst := groupByKey_fst_pairwise
      (fun p : String × Rec => p.1) strLe
      (fun a b h1 h2 => strLe_antisymm h1 h2) hsorted
    have hgroups : (groupByKey (·.1)
        (pySort (fun p q => strLe p.1 q.1) tps)).Pairwise
        (fun tg tg' : String × List (String × Rec) =>
          strLt tg.1 tg'.1 = true) := by
      have := (List.pairwise_map).mp hfst
      exact this.imp (fun hab => strLt_of_strLe_of_ne hab.1 hab.2)
    refine forall₂_pairwise ?_ (mapE_ok_forall₂ hterms) hgroups
    intro tg tg' p p' hpe hpe' hlt
    have hfst1 : p.1 = tg.1 := by
      cases hte : buildTermEntry kf soma (tg.2.map (·.2)) with
      | error e => rw [hte] at hpe; cases hpe
      | ok te => rw [hte] at hpe; cases hpe; rfl
    have hfst2 : p'.1 = tg'.1 := by
      cases hte : buildTermEntry kf soma (tg'.2.map (·.2)) with
      | error e => rw [hte] at hpe'; cases hpe'
      | ok te => rw [hte] at hpe'; cases hpe'; rfl
    rw [hfst1, hfst2]
    exact hlt

/-- C7 witness: the ordering law instantiated on a concrete two-term
report — the `"10-Year"` term entry precedes the `"5-Year"` one. -/
theorem c7_report_ordering_witness :
    ∃ rep, produce_report [recSomaA, recSomaB] sort_by_month_maturity false
        = .ok rep ∧
      rep.Pairwise (fun a b => keyLt a.key b.key = true) ∧
      ∀ be ∈ rep, be.terms.Pairwise (fun a b => strLt a.1 b.1 = true) := by
  have hIsOk : (produce_report [recSomaA, recSomaB] sort_by_month_maturity
      false).isOk = true := by decide
  cases hok : produce_report [recSomaA, recSomaB] sort_by_month_maturity false with
  | error e =>
    rw [hok] at hIsOk
    simp [Except.isOk, Except.toBool] at hIsOk
  | ok rep => exact ⟨rep, rfl, c7_report_ordering _ _ _ rep hok⟩

/-! ### Heap model of `produce_report` (frame property) -/

/-- Final content of one fresh (deduplicated) dict after the run: normalized
in place and, once its term group is assembled, stripped of the `_pyobj`
helpers. A copy on which normalization raised is abandoned mid-run; its
content no longer matters to anyone and is modelled as the unnormalized
copy. -/
def heapFinal (r : Rec) : Rec :=
  match normalizeIssue r with
  | .ok n => stripPyobj n
  | .error _ => r

/-- Heap model of `produce_report`: the caller's dicts live in a store
addressed by index and `input` is the caller's list of references.
`[dict(t) for t in set(...)]` materialises fresh dicts — the block appended
to the store — and every in-place mutation of the run (the writes of
`_normalize_dates`, the pops of `_remove_pyobj_helpers`) targets only those
fresh dicts. -/
def produce_report_heap (store : List Rec) (input : List Nat)
    (kf : Rec → Except Err (List Int)) (soma : Bool) :
    List Rec × Except Err (List BucketEntry) :=
  let results := input.map (fun i => store.getD i [])
  let fresh := dedupCanon results
  (store ++ fresh.map heapFinal, reportFromDeduped fresh kf soma)

/-- C10: `produce_report` leaves the caller's input unchanged — every store
cell the caller's list can reference holds exactly the same field-value
pairs after the call as before, because normalization, helper removal and
report assembly mutate only the fresh copies made by deduplication; and the
heap run returns the same report as the pure pipeline. -/
theorem c10_input_unchanged (store : List Rec) (input : List Nat)
    (kf : Rec → Except Err (List Int)) (soma : Bool) :
    (∀ i, i < store.length →
      ((produce_report_heap store input kf soma).1).getD i [] =
        store.getD i []) ∧
    (produce_report_heap store input kf soma).2 =
      produce_report (input.map (fun i => store.getD i [])) kf soma := by
  constructor
  · intro i hi
    exact List.getD_append _ _ _ _ hi
  · rfl

/-- C10 witness: the frame property on a concrete two-record store. -/
theorem c10_input_unchanged_witness :
    ((produce_report_heap [recSomaA, recSomaB] [0, 1, 0]
        sort_by_month_maturity true).1).getD 0 [] =
      [recSomaA, recSomaB].getD 0 [] ∧
    (produce_report_heap [recSomaA, recSomaB] [0, 1, 0]
        sort_by_month_maturity true).2 =
      produce_report ([0, 1, 0].map (fun i => [recSomaA, recSomaB].getD i []))
        sort_by_month_maturity true := by
  exact ⟨(c10_input_unchanged [recSomaA, recSomaB] [0, 1, 0]
      sort_by_month_maturity true).1 0 (by decide),
    (c10_input_unchanged [recSomaA, recSomaB] [0, 1, 0]
      sort_by_month_maturity true).2⟩

/-! ### Determinism analysis of the grouping stage -/

theorem intSum_perm {l₁ l₂ : List Int} (h : List.Perm l₁ l₂) :
    intSum l₁ = intSum l₂ := by
  unfold intSum
  rw [← List.sum_eq_foldl, ← List.sum_eq_foldl]
  exact h.sum_eq

theorem forall₂_map_eq {R : α → β → Prop} {f : α → γ} {g : β → γ}
    (hfg : ∀ a b, R a b → f a = g b) :
    ∀ {l₁ : List α} {l₂ : List β}, List.Forall₂ R l₁ l₂ →
      l₁.map f = l₂.map g := by
  intro l₁ l₂ h
  induction h with
  | nil => rfl
  | cons ha _ ih => simp [List.map_cons, hfg _ _ ha, ih]

theorem forall₂_compose {R₁ : α → β → Prop} {M : α → α' → Prop}
    {R₂ : α' → β' → Prop} {Q : β → β' → Prop}
    (h : ∀ a a' b b', M a a' → R₁ a b → R₂ a' b' → Q b b') :
    ∀ {l₁ : List α} {l₂ : List α'} {m₁ : List β} {m₂ : List β'},
      List.Forall₂ M l₁ l₂ → List.Forall₂ R₁ l₁ m₁ → List.Forall₂ R₂ l₂ m₂ →
      List.Forall₂ Q m₁ m₂ := by
  intro l₁ l₂ m₁ m₂ hm
  induction hm generalizing m₁ m₂ with
  | nil =>
    intro h₁ h₂
    cases h₁
    cases h₂
    exact .nil
  | cons hM _ ih =>
    intro h₁ h₂
    cases h₁ with
    | cons hr₁ hrest₁ =>
      cases h₂ with
      | cons hr₂ hrest₂ =>
        exact .cons (h _ _ _ _ hM hr₁ hr₂) (ih hrest₁ hrest₂)

theorem sorted_map_key_eq (key : α → List Int) {s₁ s₂ : List α}
    (hp : List.Perm s₁ s₂)
    (h₁ : s₁.Pairwise (fun a b => keyLe (key a) (key b) = true))
    (h₂ : s₂.Pairwise (fun a b => keyLe (key a) (key b) = true)) :
    s₁.map key = s₂.map key := by
  haveI : IsAntisymm (List Int) (fun a b => keyLe a b = true) :=
    ⟨fun a b hab hba => keyLe_antisymm hab hba⟩
  have hs₁ : (s₁.map key).Pairwise (fun a b => keyLe a b = true) :=
    (List.pairwise_map).mpr h₁
  have hs₂ : (s₂.map key).Pairwise (fun a b => keyLe a b = true) :=
    (List.pairwise_map).mpr h₂
  exact List.eq_of_perm_of_sorted (hp.map key) hs₁ hs₂

theorem sorted_map_term_eq (key : α → String) {s₁ s₂ : List α}
    (hp : List.Perm s₁ s₂)
    (h₁ : s₁.Pairwise (fun a b => strLe (key a) (key b) = true))
    (h₂ : s₂.Pairwise (fun a b => strLe (key a) (key b) = true)) :
    s₁.map key = s₂.map key := by
  haveI : IsAntisymm String (fun a b => strLe a b = true) :=
    ⟨fun a b hab hba => strLe_antisymm hab hba⟩
  have hs₁ : (s₁.map key).Pairwise (fun a b => strLe a b = true) :=
    (List.pairwise_map).mpr h₁
  have hs₂ : (s₂.map key).Pairwise (fun a b => strLe a b = true) :=
    (List.pairwise_map).mpr h₂
  exact List.eq_of_perm_of_sorted (hp.map key) hs₁ hs₂

theorem groupByKey_perm_forall₂ [BEq κ] [LawfulBEq κ] (key : α → κ)
    (le : κ → κ → Bool)
    (hanti : ∀ a b, le a b = true → le b a = true → a = b)
    {s₁ s₂ : List α} (hp : List.Perm s₁ s₂)
    (hs₁ : s₁.Pairwise (fun a b => le (key a) (key b) = true))
    (hs₂ : s₂.Pairwise (fun a b => le (key a) (key b) = true))
    (hkeys : s₁.map key = s₂.map key) :
    List.Forall₂ (fun g g' => g.1 = g'.1 ∧ List.Perm g.2 g'.2)
      (groupByKey key s₁) (groupByKey key s₂) := by
  have hmapfst : (groupByKey key s₁).map Prod.fst =
      (groupByKey key s₂).map Prod.fst := by
    rw [groupByKey_map_fst, groupByKey_map_fst, hkeys]
  rw [List.forall₂_iff_get]
  have hlen : (groupByKey key s₁).length = (groupByKey key s₂).length := by
    have h0 := congrArg List.length hmapfst
    rw [List.length_map, List.length_map] at h0
    exact h0
  refine ⟨hlen, ?_⟩
  intro i hi₁ hi₂
  have hfst : ((groupByKey key s₁).get ⟨i, hi₁⟩).1 =
      ((groupByKey key s₂).get ⟨i, hi₂⟩).1 := by
    have h0 : (List.map Prod.fst (groupByKey key s₁)).get? i =
        (List.map Prod.fst (groupByKey key s₂)).get? i := by rw [hmapfst]
    rw [List.get?_map, List.get?_map, List.get?_eq_get hi₁,
      List.get?_eq_get hi₂] at h0
    simp only [Option.map_some'] at h0
    exact Option.some.inj h0
  refine ⟨hfst, ?_⟩
  have hmem₁ : (groupByKey key s₁).get ⟨i, hi₁⟩ ∈ groupByKey key s₁ :=
    List.get_mem _ _ _
  have hmem₂ : (groupByKey key s₂).get ⟨i, hi₂⟩ ∈ groupByKey key s₂ :=
    List.get_mem _ _ _
  have hfil₁ := groupByKey_group_eq_filter hanti hs₁
    (k := ((groupByKey key s₁).get ⟨i, hi₁⟩).1)
    (g := ((groupByKey key s₁).get ⟨i, hi₁⟩).2) hmem₁
  have hfil₂ := groupByKey_group_eq_filter hanti hs₂
    (k := ((groupByKey key s₂).get ⟨i, hi₂⟩).1)
    (g := ((groupByKey key s₂).get ⟨i, hi₂⟩).2) hmem₂
  rw [hfil₁, hfil₂, ← hfst]
  exact hp.filter _

/-- Agreement of two term entries up to the (dedup-order-dependent) order of
their member lists. -/
def TermMatch (a b : String × TermEntry) : Prop :=
  a.1 = b.1 ∧ a.2.term_total = b.2.term_total ∧
  a.2.soma_term_total = b.2.soma_term_total ∧
  List.Perm a.2.issues b.2.issues

/-- Agreement of two bucket entries up to the order of the member lists
inside their term entries. -/
def BucketMatch (a b : BucketEntry) : Prop :=
  a.key = b.key ∧ a.timeframe = b.timeframe ∧ a.total = b.total ∧
  a.soma_total = b.soma_total ∧ List.Forall₂ TermMatch a.terms b.terms

theorem termEntry_match {kf : Rec → Except Err (List Int)} {soma : Bool}
    {rs₁ rs₂ : List Rec} (hperm : List.Perm rs₁ rs₂) {te₁ te₂ : TermEntry}
    (h₁ : buildTermEntry kf soma rs₁ = .ok te₁)
    (h₂ : buildTermEntry kf soma rs₂ = .ok te₂) :
    te₁.term_total = te₂.term_total ∧
    te₁.soma_term_total = te₂.soma_term_total ∧
    List.Perm te₁.issues te₂.issues := by
  rcases buildTermEntry_ok_inv h₁ with
    ⟨kps₁, am₁, hkps₁, hamt₁, htot₁, hiss₁, hsoma₁⟩
  rcases buildTermEntry_ok_inv h₂ with
    ⟨kps₂, am₂, hkps₂, hamt₂, htot₂, hiss₂, hsoma₂⟩
  have hkperm : List.Perm kps₁ kps₂ := by
    rw [mapE_ok_eq_map (([], []) : List Int × Rec) hkps₁,
      mapE_ok_eq_map (([], []) : List Int × Rec) hkps₂]
    exact hperm.map _
  have htid : List.Perm ((pySort (fun p q => keyLe p.1 q.1) kps₁).map (·.2))
      ((pySort (fun p q => keyLe p.1 q.1) kps₂).map (·.2)) :=
    ((pySort_perm _ kps₁).trans (hkperm.trans (pySort_perm _ kps₂).symm)).map _
  have htoteq : intSum am₁ = intSum am₂ := by
    rw [mapE_ok_eq_map (0 : Int) hamt₁, mapE_ok_eq_map (0 : Int) hamt₂]
    exact intSum_perm (htid.map _)
  refine ⟨by rw [htot₁, htot₂, htoteq], ?_, ?_⟩
  · cases soma with
    | true =>
      rcases hsoma₁ with ⟨-, sam₁, hsam₁, hs₁⟩ | ⟨hc, -⟩
      · rcases hsoma₂ with ⟨-, sam₂, hsam₂, hs₂⟩ | ⟨hc, -⟩
        · rw [hs₁, hs₂]
          congr 1
          rw [mapE_ok_eq_map (0 : Int) hsam₁, mapE_ok_eq_map (0 : Int) hsam₂]
          exact intSum_perm (htid.map _)
        · cases hc
      · cases hc
    | false =>
      rcases hsoma₁ with ⟨hc, -⟩ | ⟨-, hs₁⟩
      · cases hc
      · rcases hsoma₂ with ⟨hc, -⟩ | ⟨-, hs₂⟩
        · cases hc
        · rw [hs₁, hs₂]
  · rw [hiss₁, hiss₂]
    exact htid.map _

theorem bucketEntry_match {kf : Rec → Except Err (List Int)} {soma : Bool}
    {k : List Int} {is₁ is₂ : List Rec} (hperm : List.Perm is₁ is₂)
    {be₁ be₂ : BucketEntry}
    (h₁ : buildBucket kf soma k is₁ = .ok be₁)
    (h₂ : buildBucket kf soma k is₂ = .ok be₂) :
    BucketMatch be₁ be₂ := by
  rcases buildBucket_ok_inv h₁ with ⟨tps₁, terms₁, htps₁, hterms₁, hbe₁⟩
  rcases buildBucket_ok_inv h₂ with ⟨tps₂, terms₂, htps₂, hterms₂, hbe₂⟩
  have htperm : List.Perm tps₁ tps₂ := by
    rw [mapE_ok_eq_map (("", ([] : Rec)) : String × Rec) htps₁,
      mapE_ok_eq_map (("", ([] : Rec)) : String × Rec) htps₂]
    exact hperm.map _
  have hsperm : List.Perm (pySort (fun p q => strLe p.1 q.1) tps₁)
      (pySort (fun p q => strLe p.1 q.1) tps₂) :=
    (pySort_perm _ tps₁).trans (htperm.trans (pySort_perm _ tps₂).symm)
  have hs₁ := pySort_pairwise (fun p q : String × Rec => strLe p.1 q.1)
    (fun a b => strLe_total a.1 b.1)
    (fun a b c x y => strLe_trans (a := a.1) (b := b.1) (c := c.1) x y) tps₁
  have hs₂ := pySort_pairwise (fun p q : String × Rec => strLe p.1 q.1)
    (fun a b => strLe_total a.1 b.1)
    (fun a b c x y => strLe_trans (a := a.1) (b := b.1) (c := c.1) x y) tps₂
  have hkeys := sorted_map_term_eq (fun p : String × Rec => p.1)
    hsperm hs₁ hs₂
  have hgroups := groupByKey_perm_forall₂ (fun p : String × Rec => p.1)
    strLe (fun a b x y => strLe_antisymm x y) hsperm hs₁ hs₂ hkeys
  have hTermsMatch : List.Forall₂ TermMatch terms₁ terms₂ := by
    refine forall₂_compose ?_ hgroups (mapE_ok_forall₂ hterms₁)
      (mapE_ok_forall₂ hterms₂)
    intro tg tg' p p' hM hr₁ hr₂
    cases hte₁ : buildTermEntry kf soma (tg.2.map (·.2)) with
    | error e => rw [hte₁] at hr₁; cases hr₁
    | ok te₁ =>
      rw [hte₁] at hr₁
      cases hr₁
      cases hte₂ : buildTermEntry kf soma (tg'.2.map (·.2)) with
      | error e => rw [hte₂] at hr₂; cases hr₂
      | ok te₂ =>
        rw [hte₂] at hr₂
        cases hr₂
        rcases termEntry_match (hM.2.map _) hte₁ hte₂ with ⟨ht, hst, hiss⟩
        exact ⟨hM.1, ht, hst, hiss⟩
  have hmapterm : terms₁.map (fun p => p.2.term_total) =
      terms₂.map (fun p => p.2.term_total) :=
    forall₂_map_eq (fun a b hab => hab.2.1) hTermsMatch
  have hmapsoma : terms₁.map (fun p => p.2.soma_term_total.getD 0) =
      terms₂.map (fun p => p.2.soma_term_total.getD 0) :=
    forall₂_map_eq (fun a b hab => by rw [hab.2.2.1]) hTermsMatch
  subst hbe₁
  subst hbe₂
  refine ⟨rfl, rfl, by rw [hmapterm], by rw [hmapsoma], hTermsMatch⟩

/-- A third SOMA record in the same bucket and term as `recSomaA`. -/
def recSomaC : Rec :=
  [("cusip", .s "912828CC9"), ("securityTerm", .s "5-Year"),
   ("offeringAmount", .s "3000"), ("maturityDate", .s "2020-06-20T00:00:00"),
   ("soma_holding_amount", .s "900")]

/-- C9, counterexample: the grouping stage applied to two enumerations of
the same deduplicated set (a permutation — exactly the freedom the
unspecified `set` order leaves) does NOT yield identical reports: two
records in the same bucket and term keep their arrival order in the member
list, because every downstream sort is stable and compares keys that are
equal within a term. -/
theorem c9_determinism_counterexample :
    List.Perm [recSomaA, recSomaC] [recSomaC, recSomaA] ∧
    reportFromDeduped [recSomaA, recSomaC] sort_by_month_maturity false ≠
      reportFromDeduped [recSomaC, recSomaA] sort_by_month_maturity false := by
  exact ⟨List.Perm.swap _ _ _, by decide⟩

/-- C9 (amended): the grouping stage is deterministic given its inputs up to
the order of the member lists inside term entries, which inherits the
deduplicator's unspecified enumeration order. For any two enumerations of
the deduplicated records, the two reports agree bucket-for-bucket on key,
timeframe, totals (including soma totals) and term-for-term on name and
totals, with member lists equal as multisets (permutations). -/
theorem c9_grouping_determinism_amended (l₁ l₂ : List Rec)
    (kf : Rec → Except Err (List Int)) (soma : Bool)
    (rep₁ rep₂ : List BucketEntry) (hperm : List.Perm l₁ l₂)
    (h₁ : reportFromDeduped l₁ kf soma = .ok rep₁)
    (h₂ : reportFromDeduped l₂ kf soma = .ok rep₂) :
    List.Forall₂ BucketMatch rep₁ rep₂ := by
  rcases reportFromDeduped_ok_inv h₁ with ⟨n₁, p₁, hn₁, hp₁, hrep₁⟩
  rcases reportFromDeduped_ok_inv h₂ with ⟨n₂, p₂, hn₂, hp₂, hrep₂⟩
  have hnperm : List.Perm n₁ n₂ := by
    rw [mapE_ok_eq_map ([] : Rec) hn₁, mapE_ok_eq_map ([] : Rec) hn₂]
    exact hperm.map _
  have hpperm : List.Perm p₁ p₂ := by
    rw [mapE_ok_eq_map (([], ([] : Rec)) : List Int × Rec) hp₁,
      mapE_ok_eq_map (([], ([] : Rec)) : List Int × Rec) hp₂]
    exact hnperm.map _
  have hsperm : List.Perm (pySort (fun p q => keyLe p.1 q.1) p₁)
      (pySort (fun p q => keyLe p.1 q.1) p₂) :=
    (pySort_perm _ p₁).trans (hpperm.trans (pySort_perm _ p₂).symm)
  have hs₁ := pySort_pairwise (fun p q : List Int × Rec => keyLe p.1 q.1)
    (fun a b => keyLe_total a.1 b.1)
    (fun a b c x y => keyLe_trans (a := a.1) (b := b.1) (c := c.1) x y) p₁
  have hs₂ := pySort_pairwise (fun p q : List Int × Rec => keyLe p.1 q.1)
    (fun a b => keyLe_total a.1 b.1)
    (fun a b c x y => keyLe_trans (a := a.1) (b := b.1) (c := c.1) x y) p₂
  have hkeys := sorted_map_key_eq (fun p : List Int × Rec => p.1)
    hsperm hs₁ hs₂
  have hgroups := groupByKey_perm_forall₂ (fun p : List Int × Rec => p.1)
    keyLe (fun a b x y => keyLe_antisymm x y) hsperm hs₁ hs₂ hkeys
  refine forall₂_compose ?_ hgroups (mapE_ok_forall₂ hrep₁)
    (mapE_ok_forall₂ hrep₂)
  intro g g' be be' hM hr₁ hr₂
  rw [← hM.1] at hr₂
  exact bucketEntry_match (hM.2.map _) hr₁ hr₂

/-- C9 witness: the amended agreement law instantiated on the two concrete
enumerations of the counterexample. -/
theorem c9_grouping_determinism_amended_witness :
    ∃ rep₁ rep₂,
      reportFromDeduped [recSomaA, recSomaC] sort_by_month_maturity false
        = .ok rep₁ ∧
      reportFromDeduped [recSomaC, recSomaA] sort_by_month_maturity false
        = .ok rep₂ ∧
      List.Forall₂ BucketMatch rep₁ rep₂ := by
  have hIsOk₁ : (reportFromDeduped [recSomaA, recSomaC] sort_by_month_maturity
      false).isOk = true := by decide
  have hIsOk₂ : (reportFromDeduped [recSomaC, recSomaA] sort_by_month_maturity
      false).isOk = true := by decide
  cases hok₁ : reportFromDeduped [recSomaA, recSomaC] sort_by_month_maturity
      false with
  | error e =>
    rw [hok₁] at hIsOk₁
    simp [Except.isOk, Except.toBool] at hIsOk₁
  | ok rep₁ =>
    cases hok₂ : reportFromDeduped [recSomaC, recSomaA] sort_by_month_maturity
        false with
    | error e =>
      rw [hok₂] at hIsOk₂
      simp [Except.isOk, Except.toBool] at hIsOk₂
    | ok rep₂ =>
      exact ⟨rep₁, rep₂, rfl, rfl,
        c9_grouping_determinism_amended _ _ _ _ rep₁ rep₂
          (List.Perm.swap _ _ _) hok₁ hok₂⟩
